import Mathlib

/-! # cloudantsnap: the checkpointed change-feed snapshot

A shallow embedding of `internal/app/snap.go`, `snap/snap.go` and `snap/meta.go`.

In the runs, Go strings and file contents are modelled as Lean `String`s (sequences of
Unicode characters, that is, valid UTF-8): the strings of a run come from flags, from
the clock and from a JSON decoder. The checkpoint record is modelled a second time on
Go strings of any bytes (`Bytes.MetaData`), where the encoder replaces a byte that is
not UTF-8, and the two models are shown to agree on valid UTF-8 (`ofText_agrees`).
Errors are modelled as their message text. What the environment
answers (a failing open, a failing rename, the items the change feed delivers, the
readings of the clock) is an explicit input, and `json.Marshal` on a document of the
SDK is a parameter. The parts of the Go library the code calls on its own data
(`regexp`, `strings.ReplaceAll`, `encoding/json` on the checkpoint record) are modelled
first; the encoder is the one of Go 1.22, which writes `\b` and `\f` where older ones
wrote `\u0008` and `\u000c` (the decoder reads both).
-/

namespace CloudantSnap

/-! ## Library: `regexp` restricted to the constructs of the pattern `-.*$` -/

/-- One element of a concatenation, with no flags set: a literal character, `.`
(any character but a newline), a greedy `x*` of either, and `$` (end of text). -/
inductive ReItem where
  | lit (c : Char)
  | dot
  | starLit (c : Char)
  | starDot
  | endText
  deriving DecidableEq, Repr

/-- `.` does not match a newline when the flag `s` is off. -/
def dotMatches (c : Char) : Bool := c != '\n'

/-- Greedy repetition of a one-character matcher `p`, followed by the continuation `k`:
take one more character when possible and fall back to stopping here. -/
def matchStar (p : Char → Bool) (k : List Char → Option (List Char)) :
    List Char → Option (List Char)
  | [] => k []
  | c :: cs =>
    if p c then
      match matchStar p k cs with
      | some rest => some rest
      | none => k (c :: cs)
    else k (c :: cs)

/-- Match the concatenation at the start of the input, preferring the leftmost-first
(backtracking) choice; the result is the input left after the match. -/
def matchHere : List ReItem → List Char → Option (List Char)
  | [], s => some s
  | .lit c :: r, s =>
    match s with
    | [] => none
    | x :: xs => if x = c then matchHere r xs else none
  | .dot :: r, s =>
    match s with
    | [] => none
    | x :: xs => if dotMatches x then matchHere r xs else none
  | .starLit c :: r, s => matchStar (fun x => x == c) (matchHere r) s
  | .starDot :: r, s => matchStar dotMatches (matchHere r) s
  | .endText :: r, s =>
    match s with
    | [] => matchHere r []
    | _ :: _ => none

/-- `Regexp.ReplaceAllString(src, "")` for a pattern whose matches are never empty:
copy the text up to the leftmost match, drop the match, go on after it. The counter
is the number of characters still inside the match being dropped. -/
def replaceAllEmpty (re : List ReItem) : Nat → List Char → List Char
  | _ + 1, [] => []
  | n + 1, _ :: cs => replaceAllEmpty re n cs
  | 0, [] => []
  | 0, c :: cs =>
    match matchHere re (c :: cs) with
    | some rest => replaceAllEmpty re ((c :: cs).length - rest.length - 1) cs
    | none => c :: replaceAllEmpty re 0 cs

/-- The pattern of `regexp.MustCompile("-.*$")`. -/
def truncateRe : List ReItem := [.lit '-', .starDot, .endText]

/-! ## Library: `strings.ReplaceAll` -/

/-- `strings.ReplaceAll(s, old, new)` for a non-empty `old`: every non-overlapping
occurrence of `old`, from the left, is replaced by `new`. The counter is the number of
characters still inside the occurrence being replaced. -/
def replaceAllChars (old new : List Char) : Nat → List Char → List Char
  | _ + 1, [] => []
  | n + 1, _ :: cs => replaceAllChars old new n cs
  | 0, [] => []
  | 0, c :: cs =>
    if old.isPrefixOf (c :: cs) then new ++ replaceAllChars old new (old.length - 1) cs
    else c :: replaceAllChars old new 0 cs

/-- `strings.ReplaceAll` on strings. -/
def ReplaceAll (s old new : String) : String :=
  ⟨replaceAllChars old.data new.data 0 s.data⟩

/-! ## Library: `encoding/json`, decoding -/

/-- A decoded JSON value (what `Unmarshal` stores in an `interface{}`); a number keeps
its literal. -/
inductive JSON where
  | null
  | bool (b : Bool)
  | num (literal : List Char)
  | str (s : String)
  | arr (elems : List JSON)
  | obj (members : List (String × JSON))

/-- The scanner's white space: space, tab, carriage return, line feed. -/
def isSpace (c : Char) : Bool := c = ' ' || c = '\t' || c = '\r' || c = '\n'

/-- Drop leading white space. -/
def skipSpace : List Char → List Char
  | [] => []
  | c :: cs => if isSpace c then skipSpace cs else c :: cs

/-- Value of one hexadecimal digit, upper or lower case. -/
def hexVal (c : Char) : Option Nat :=
  if '0' ≤ c ∧ c ≤ '9' then some (c.toNat - '0'.toNat)
  else if 'a' ≤ c ∧ c ≤ 'f' then some (c.toNat - 'a'.toNat + 10)
  else if 'A' ≤ c ∧ c ≤ 'F' then some (c.toNat - 'A'.toNat + 10)
  else none

/-- The code unit written by the four hexadecimal digits of a `\u` escape (`getu4`). -/
def hex4 (a b c d : Char) : Option Nat :=
  match hexVal a, hexVal b, hexVal c, hexVal d with
  | some w, some x, some y, some z => some (((w * 16 + x) * 16 + y) * 16 + z)
  | _, _, _, _ => none

/-- `utf16.IsSurrogate`. -/
def isSurrogate (n : Nat) : Bool := 0xD800 ≤ n && n < 0xE000

/-- The `utf8.RuneError` character U+FFFD. -/
def replacementChar : Char := Char.ofNat 0xFFFD

/-- `utf16.DecodeRune`: the character of a valid surrogate pair, else U+FFFD. -/
def decodeRune (r1 r2 : Nat) : Char :=
  if 0xD800 ≤ r1 ∧ r1 < 0xDC00 ∧ 0xDC00 ≤ r2 ∧ r2 < 0xE000 then
    Char.ofNat ((r1 - 0xD800) * 0x400 + (r2 - 0xDC00) + 0x10000)
  else replacementChar

/-- The character of a one-letter escape. -/
def simpleEscape (e : Char) : Option Char :=
  if e = '"' then some '"'
  else if e = '\\' then some '\\'
  else if e = '/' then some '/'
  else if e = 'b' then some (Char.ofNat 8)
  else if e = 'f' then some (Char.ofNat 12)
  else if e = 'n' then some '\n'
  else if e = 'r' then some '\r'
  else if e = 't' then some '\t'
  else none

/-- Put a decoded character in front of the rest of a decoded string. -/
def consChar (c : Char) : Option (List Char × List Char) → Option (List Char × List Char)
  | some (cs, rest) => some (c :: cs, rest)
  | none => none

/-- The character a surrogate `r1` makes with a `\u` escape at the start of the input,
when there is one and the two are a valid pair. -/
def pairedWith (r1 : Nat) : List Char → Option Char
  | b :: u :: g1 :: g2 :: g3 :: g4 :: _ =>
    if b = '\\' ∧ u = 'u' then
      match hex4 g1 g2 g3 g4 with
      | some r2 => if decodeRune r1 r2 = replacementChar then none else some (decodeRune r1 r2)
      | none => none
    else none
  | _ => none

/-- One character of a string literal, from the input `c :: cs`: the character decoded
and how many characters of `cs` went into it. Control characters and bad escapes are
errors; a `\u` escape that is half of a surrogate pair decodes with its other half, a
lone one to U+FFFD. -/
def decodeOne (c : Char) (cs : List Char) : Option (Char × Nat) :=
  if c = '\\' then
    match cs with
    | [] => none
    | e :: cs1 =>
      if e = 'u' then
        match cs1 with
        | h1 :: h2 :: h3 :: h4 :: cs2 =>
          match hex4 h1 h2 h3 h4 with
          | none => none
          | some n =>
            if isSurrogate n then
              match pairedWith n cs2 with
              | none => some (replacementChar, 5)
              | some ch => some (ch, 11)
            else some (Char.ofNat n, 5)
        | _ => none
      else
        match simpleEscape e with
        | some ch => some (ch, 1)
        | none => none
  else if c.val < 0x20 then none
  else some (c, 0)

/-- A string literal after its opening quote: the decoded characters and the input
after the closing quote. The counter is the number of characters still inside the escape
just decoded. -/
def parseStringFrom : Nat → List Char → Option (List Char × List Char)
  | _ + 1, [] => none
  | n + 1, _ :: cs => parseStringFrom n cs
  | 0, [] => none
  | 0, c :: cs =>
    if c = '"' then some ([], cs)
    else
      match decodeOne c cs with
      | none => none
      | some (ch, used) => consChar ch (parseStringFrom used cs)

/-- A string literal after its opening quote. -/
def parseString (s : List Char) : Option (List Char × List Char) :=
  parseStringFrom 0 s

/-- Split off the leading decimal digits. -/
def takeDigits : List Char → List Char × List Char
  | [] => ([], [])
  | c :: cs =>
    if c.isDigit then ((takeDigits cs).1.cons c, (takeDigits cs).2) else ([], c :: cs)

/-- Value of a list of decimal digits. -/
def digitsVal (ds : List Char) : Nat :=
  ds.foldl (fun acc d => acc * 10 + (d.toNat - '0'.toNat)) 0

/-- A scanned number: its digits before and after the point, and its exponent. -/
structure NumLit where
  intDigits : List Char
  fracDigits : List Char
  expNegative : Bool
  expDigits : List Char

/-- The integer part of a number: `0`, or a non-zero digit and more digits. -/
def parseInt (s : List Char) : Option (List Char × List Char) :=
  match s with
  | [] => none
  | c :: cs =>
    if c = '0' then some ([c], cs)
    else if c.isDigit then some (c :: (takeDigits cs).1, (takeDigits cs).2)
    else none

/-- The optional fraction: a point and at least one digit. -/
def parseFrac (s : List Char) : Option (List Char × List Char) :=
  match s with
  | c :: cs =>
    if c = '.' then
      match takeDigits cs with
      | ([], _) => none
      | (ds, rest) => some (ds, rest)
    else some ([], s)
  | [] => some ([], s)

/-- The optional exponent: `e` or `E`, an optional sign, at least one digit. -/
def parseExp (s : List Char) : Option (Bool × List Char × List Char) :=
  match s with
  | c :: cs =>
    if c = 'e' ∨ c = 'E' then
      match cs with
      | sign :: cs1 =>
        if sign = '+' ∨ sign = '-' then
          match takeDigits cs1 with
          | ([], _) => none
          | (ds, rest) => some (decide (sign = '-'), ds, rest)
        else
          match takeDigits cs with
          | ([], _) => none
          | (ds, rest) => some (false, ds, rest)
      | [] => none
    else some (false, [], s)
  | [] => some (false, [], s)

/-- A number after its optional minus sign. -/
def parseNumber (s : List Char) : Option (NumLit × List Char) :=
  match parseInt s with
  | none => none
  | some (i, s1) =>
    match parseFrac s1 with
    | none => none
    | some (f, s2) =>
      match parseExp s2 with
      | none => none
      | some (neg, e, s3) => some (⟨i, f, neg, e⟩, s3)

/-- The least magnitude that rounds to infinity as a `float64`: half a unit in the
last place above the largest finite one, `2^1024 - 2^970`, written `2^970 * (2^54 - 1)`. -/
def float64Overflow : Nat := (2 ^ 97) ^ 10 * (2 ^ 54 - 1)

/-- Whether `strconv.ParseFloat(_, 64)` reports `ErrRange`: the magnitude rounds to
infinity. -/
def NumLit.overflows (n : NumLit) : Bool :=
  let m := digitsVal (n.intDigits ++ n.fracDigits)
  let e := digitsVal n.expDigits
  let down := n.fracDigits.length + (if n.expNegative then e else 0)
  let up := if n.expNegative then 0 else e
  decide (float64Overflow * 10 ^ (down - up) ≤ m * 10 ^ (up - down))

/-- The scanner's `maxNestingDepth`. -/
def maxNestingDepth : Nat := 10000

/-- What a value starts with decides its kind; `startOf` is the part of the parser that
does not recurse. The answers: a finished scalar, the start of an array, the start of an
object, or an error. -/
inductive Start where
  | scalar (v : JSON) (rest : List Char)
  | array (rest : List Char)
  | object (rest : List Char)
  | bad

/-- Look at the first character of a value (white space already skipped). A number out
of the range of `float64` is an error of the decoder and is reported as one here. -/
def startOf (s : List Char) : Start :=
  match s with
  | [] => .bad
  | c :: cs =>
    if c = '{' then .object cs
    else if c = '[' then .array cs
    else if c = '"' then
      match parseString cs with
      | some (str, rest) => .scalar (.str ⟨str⟩) rest
      | none => .bad
    else if c = '-' then
      match parseNumber cs with
      | some (n, rest) =>
        if n.overflows then .bad else .scalar (.num (s.take (s.length - rest.length))) rest
      | none => .bad
    else if c.isDigit then
      match parseNumber s with
      | some (n, rest) =>
        if n.overflows then .bad else .scalar (.num (s.take (s.length - rest.length))) rest
      | none => .bad
    else if "true".data.isPrefixOf s then .scalar (.bool true) (s.drop 4)
    else if "false".data.isPrefixOf s then .scalar (.bool false) (s.drop 5)
    else if "null".data.isPrefixOf s then .scalar .null (s.drop 4)
    else .bad

mutual
/-- A value, with leading white space; `depth` is the number of arrays and objects
it is nested in. -/
def parseValue : Nat → Nat → List Char → Option (JSON × List Char)
  | 0, _, _ => none
  | fuel + 1, depth, s =>
    match startOf (skipSpace s) with
    | .bad => none
    | .scalar v rest => some (v, rest)
    | .array rest =>
      if maxNestingDepth ≤ depth then none
      else
        match skipSpace rest with
        | [] => none
        | c :: cs =>
          if c = ']' then some (.arr [], cs)
          else
            match parseElements fuel (depth + 1) (c :: cs) with
            | some (vs, rest1) => some (.arr vs, rest1)
            | none => none
    | .object rest =>
      if maxNestingDepth ≤ depth then none
      else
        match skipSpace rest with
        | [] => none
        | c :: cs =>
          if c = '}' then some (.obj [], cs)
          else
            match parseMembers fuel (depth + 1) (c :: cs) with
            | some (ms, rest1) => some (.obj ms, rest1)
            | none => none
/-- The elements of a non-empty array, up to and including the closing bracket. -/
def parseElements : Nat → Nat → List Char → Option (List JSON × List Char)
  | 0, _, _ => none
  | fuel + 1, depth, s =>
    match parseValue fuel depth s with
    | none => none
    | some (v, rest) =>
      match skipSpace rest with
      | [] => none
      | c :: cs =>
        if c = ']' then some ([v], cs)
        else if c = ',' then
          match parseElements fuel depth cs with
          | some (vs, rest1) => some (v :: vs, rest1)
          | none => none
        else none
/-- The members of a non-empty object, up to and including the closing brace. -/
def parseMembers : Nat → Nat → List Char → Option (List (String × JSON) × List Char)
  | 0, _, _ => none
  | fuel + 1, depth, s =>
    match skipSpace s with
    | [] => none
    | q :: s1 =>
      if q = '"' then
        match parseString s1 with
        | none => none
        | some (key, s2) =>
          match skipSpace s2 with
          | [] => none
          | colon :: s3 =>
            if colon = ':' then
              match parseValue fuel depth s3 with
              | none => none
              | some (v, rest) =>
                match skipSpace rest with
                | [] => none
                | c :: cs =>
                  if c = '}' then some ([(⟨key⟩, v)], cs)
                  else if c = ',' then
                    match parseMembers fuel depth cs with
                    | some (ms, rest1) => some ((⟨key⟩, v) :: ms, rest1)
                    | none => none
                  else none
            else none
      else none
end

/-- The whole input as one JSON value: white space, a value, white space, the end. The
fuel is never used up: a call on an input of `n` characters is given more than `2 * n`
units, and between a call and the calls it makes either a character is read or the call
is the one `parseElements` makes for its first element. -/
def parseDocument (contents : String) : Option JSON :=
  match parseValue (2 * contents.length + 1) 0 contents.data with
  | some (v, rest) => if skipSpace rest = [] then some v else none
  | none => none

/-- Index a decoded map: of several members with the same key the last one counts, and
a missing key gives the nil interface. -/
def mapIndex (m : List (String × JSON)) (key : String) : Option JSON :=
  (m.reverse.find? (fun kv => kv.1 = key)).map (fun kv => kv.2)

/-- `json.Unmarshal(contents, &data)` for `var data map[string]interface{}`: the
map on success (`null` leaves the nil map), `none` on an error: invalid JSON, a value
that is not an object, a number out of range. -/
def Unmarshal (contents : String) : Option (List (String × JSON)) :=
  match parseDocument contents with
  | some (.obj ms) => some ms
  | some .null => some []
  | _ => none

/-! ## Library: `encoding/json`, encoding -/

/-- The table `hex` of the encoder. -/
def hexDigit (n : Nat) : Char := "0123456789abcdef".data.getD n '0'

/-- The table `htmlSafeSet`: the ASCII characters the encoder copies unchanged. -/
def htmlSafe (c : Char) : Bool :=
  decide (0x20 ≤ c.val) && !(c = '"' || c = '&' || c = '<' || c = '>' || c = '\\')

/-- What `appendString` (with `escapeHTML`) writes for one character. -/
def escapeChar (c : Char) : List Char :=
  if c.val < 0x80 then
    if htmlSafe c then [c]
    else if c = '\\' ∨ c = '"' then ['\\', c]
    else if c = Char.ofNat 8 then ['\\', 'b']
    else if c = Char.ofNat 12 then ['\\', 'f']
    else if c = '\n' then ['\\', 'n']
    else if c = '\r' then ['\\', 'r']
    else if c = '\t' then ['\\', 't']
    else ['\\', 'u', '0', '0', hexDigit (c.toNat / 16), hexDigit (c.toNat % 16)]
  else if c = Char.ofNat 0x2028 ∨ c = Char.ofNat 0x2029 then
    ['\\', 'u', '2', '0', '2', hexDigit (c.toNat % 16)]
  else [c]

/-- The characters of a string between the quotes of its JSON form. -/
def escapeChars : List Char → List Char
  | [] => []
  | c :: cs => escapeChar c ++ escapeChars cs

/-- `json.Marshal` of a string that is valid UTF-8: `appendString` where its branch for
an invalid byte is not taken (`appendString`, below, is the function on every Go
string). -/
def encodeString (s : String) : String :=
  ⟨'"' :: (escapeChars s.data ++ ['"'])⟩

/-! ## Library: `unicode/utf8`, and `appendString` on strings of any bytes -/

/-- A Go string: a sequence of bytes, not necessarily valid UTF-8. -/
abbrev GoString := List UInt8

/-- `utf8.RuneError`, the code point U+FFFD. -/
def runeError : Nat := 0xFFFD

/-- The bytes of one character in UTF-8. -/
def utf8Bytes (c : Char) : List UInt8 :=
  if c.toNat < 0x80 then [UInt8.ofNat c.toNat]
  else if c.toNat < 0x800 then
    [UInt8.ofNat (0xC0 + c.toNat / 64), UInt8.ofNat (0x80 + c.toNat % 64)]
  else if c.toNat < 0x10000 then
    [UInt8.ofNat (0xE0 + c.toNat / 4096), UInt8.ofNat (0x80 + c.toNat / 64 % 64),
     UInt8.ofNat (0x80 + c.toNat % 64)]
  else
    [UInt8.ofNat (0xF0 + c.toNat / 262144), UInt8.ofNat (0x80 + c.toNat / 4096 % 64),
     UInt8.ofNat (0x80 + c.toNat / 64 % 64), UInt8.ofNat (0x80 + c.toNat % 64)]

/-- The bytes of a list of characters. -/
def utf8Chars : List Char → List UInt8
  | [] => []
  | c :: cs => utf8Bytes c ++ utf8Chars cs

/-- The bytes of a string: the Go string that holds this text, valid UTF-8. -/
def utf8 (s : String) : GoString := utf8Chars s.data

/-- Whether the byte `b` lies between `lo` and `hi`. -/
def inRange (lo hi : Nat) (b : UInt8) : Bool := decide (lo ≤ b.toNat) && decide (b.toNat ≤ hi)

/-- `utf8.DecodeRune`: the first rune of the bytes and its width; `(RuneError, 1)` for a
byte that does not begin a well-formed sequence, `(RuneError, 0)` for no bytes. The
second byte of a sequence has the range of `acceptRanges`: `A0..BF` after `E0`, `80..9F`
after `ED`, `90..BF` after `F0`, `80..8F` after `F4`, `80..BF` otherwise. -/
def DecodeRune (p : List UInt8) : Nat × Nat :=
  match p with
  | [] => (runeError, 0)
  | p0 :: rest =>
    if p0.toNat < 0x80 then (p0.toNat, 1)
    else if p0.toNat < 0xC2 then (runeError, 1)
    else if p0.toNat < 0xE0 then
      match rest with
      | b1 :: _ =>
        if inRange 0x80 0xBF b1 then (p0.toNat % 32 * 64 + b1.toNat % 64, 2)
        else (runeError, 1)
      | [] => (runeError, 1)
    else if p0.toNat < 0xF0 then
      match rest with
      | b1 :: b2 :: _ =>
        if inRange (if p0.toNat = 0xE0 then 0xA0 else 0x80)
            (if p0.toNat = 0xED then 0x9F else 0xBF) b1 then
          if inRange 0x80 0xBF b2 then
            ((p0.toNat % 16 * 64 + b1.toNat % 64) * 64 + b2.toNat % 64, 3)
          else (runeError, 1)
        else (runeError, 1)
      | _ => (runeError, 1)
    else if p0.toNat < 0xF5 then
      match rest with
      | b1 :: b2 :: b3 :: _ =>
        if inRange (if p0.toNat = 0xF0 then 0x90 else 0x80)
            (if p0.toNat = 0xF4 then 0x8F else 0xBF) b1 then
          if inRange 0x80 0xBF b2 then
            if inRange 0x80 0xBF b3 then
              (((p0.toNat % 8 * 64 + b1.toNat % 64) * 64 + b2.toNat % 64) * 64 +
                b3.toNat % 64, 4)
            else (runeError, 1)
          else (runeError, 1)
        else (runeError, 1)
      | _ => (runeError, 1)
    else (runeError, 1)

/-- The runes of a Go string, read one `DecodeRune` after the other: a byte that does
not begin a well-formed sequence reads as U+FFFD. The counter is the number of bytes
still inside the sequence just read. -/
def toRunes : Nat → List UInt8 → List Char
  | _ + 1, [] => []
  | n + 1, _ :: bs => toRunes n bs
  | 0, [] => []
  | 0, b :: bs =>
    Char.ofNat (DecodeRune (b :: bs)).1 :: toRunes ((DecodeRune (b :: bs)).2 - 1) bs

/-- What `appendString` (with `escapeHTML`) writes between the quotes for a Go string of
any bytes: an ASCII byte as `escapeChar` says; for a byte that `DecodeRune` reports as
`RuneError` of width 1, the six characters `\ufffd`; any other rune as `escapeChar` says
(U+2028 and U+2029 escaped, the rest copied). The counter is the number of bytes still
inside the sequence just read. -/
def appendStringFrom : Nat → List UInt8 → List Char
  | _ + 1, [] => []
  | n + 1, _ :: bs => appendStringFrom n bs
  | 0, [] => []
  | 0, b :: bs =>
    if b.toNat < 0x80 then escapeChar (Char.ofNat b.toNat) ++ appendStringFrom 0 bs
    else if DecodeRune (b :: bs) = (runeError, 1) then
      ['\\', 'u', 'f', 'f', 'f', 'd'] ++ appendStringFrom 0 bs
    else
      escapeChar (Char.ofNat (DecodeRune (b :: bs)).1) ++
        appendStringFrom ((DecodeRune (b :: bs)).2 - 1) bs

/-- `json.Marshal` of a Go string of any bytes: `appendString`. What it writes is valid
UTF-8, a text. -/
def appendString (s : GoString) : String :=
  ⟨'"' :: (appendStringFrom 0 s ++ ['"'])⟩

/-! ## `snap/meta.go` -/

/-- The characters of an RFC 3339 time. -/
def timeChar (c : Char) : Bool :=
  c.isDigit || c = '-' || c = ':' || c = 'T' || c = 'Z' || c = '+' || c = '.'

/-- A `time.Time` of the range `json.Marshal` accepts (years 0 to 9999), represented by
the RFC 3339 text `Time.MarshalJSON` writes between quotes. -/
structure Time where
  text : String
  plain : text.data.all timeChar = true

/-- The zero `time.Time`. -/
def Time.zero : Time := ⟨"0001-01-01T00:00:00Z", by decide⟩

/-- `MetaData` records a run's start and end time, the database name and the last
sequence token. -/
structure MetaData where
  Since : String
  StartTime : Time
  EndTime : Time
  DatabaseName : String

/-- `NewMetaData`; `now` is the reading of `time.Now()`. -/
def NewMetaData (databaseName : String) (now : Time) : MetaData :=
  { Since := "", StartTime := now, EndTime := Time.zero, DatabaseName := databaseName }

/-- `MetaData.RecordEnd`; `now` is the reading of `time.Now()`. -/
def MetaData.RecordEnd (md : MetaData) (since : String) (now : Time) : MetaData :=
  { md with Since := since, EndTime := now }

/-- `MetaData.Output`: `json.Marshal` of the struct, its fields in declaration order
under the names of their tags. -/
def MetaData.Output (md : MetaData) : String :=
  "\x7b\"since\":" ++ encodeString md.Since ++
  ",\"startTime\":\"" ++ md.StartTime.text ++
  "\",\"endTime\":\"" ++ md.EndTime.text ++
  "\",\"db\":" ++ encodeString md.DatabaseName ++ "\x7d"

/-- `MetaData.LoadPreviousFile`, given what `os.ReadFile(filename)` returns. A read
error or an `Unmarshal` error returns with `md` as it was; then `data["since"].(string)`
is a type assertion without the `ok` result, which panics (`none`) when the member is
missing or not a string. -/
def MetaData.LoadPreviousFile (md : MetaData) (read : Except String String) :
    Option MetaData :=
  match read with
  | .error _ => some md
  | .ok contents =>
    match Unmarshal contents with
    | none => some md
    | some data =>
      match mapIndex data "since" with
      | some (.str since) => some { md with Since := since }
      | _ => none

/-- `MetaData.GetTruncatedSince`. -/
def MetaData.GetTruncatedSince (md : MetaData) : String :=
  if md.Since = "0" then md.Since
  else ⟨replaceAllEmpty truncateRe 0 md.Since.data⟩

/-! ## `snap/meta.go` on Go strings of any bytes

The same record and functions with `Since` and `DatabaseName` as Go holds them, byte
sequences, and with the file as bytes. -/

namespace Bytes

/-- `MetaData`, its strings as bytes. -/
structure MetaData where
  Since : GoString
  StartTime : Time
  EndTime : Time
  DatabaseName : GoString

/-- `NewMetaData`; `now` is the reading of `time.Now()`. -/
def NewMetaData (databaseName : GoString) (now : Time) : MetaData :=
  { Since := [], StartTime := now, EndTime := Time.zero, DatabaseName := databaseName }

/-- `MetaData.RecordEnd`; `now` is the reading of `time.Now()`. -/
def MetaData.RecordEnd (md : MetaData) (since : GoString) (now : Time) : MetaData :=
  { md with Since := since, EndTime := now }

/-- The text `json.Marshal(md)` writes. -/
def MetaData.marshalled (md : MetaData) : String :=
  "\x7b\"since\":" ++ appendString md.Since ++
  ",\"startTime\":\"" ++ md.StartTime.text ++
  "\",\"endTime\":\"" ++ md.EndTime.text ++
  "\",\"db\":" ++ appendString md.DatabaseName ++ "\x7d"

/-- `MetaData.Output`: the bytes of `json.Marshal(md)`. -/
def MetaData.Output (md : MetaData) : GoString :=
  utf8 md.marshalled

/-- `MetaData.LoadPreviousFile`, given what `os.ReadFile(filename)` returns. The decoder
takes bytes: outside string literals its scanner accepts ASCII only, and in a literal
`unquote` reads the bytes one `DecodeRune` after the other, so it decodes the text
`toRunes` makes of the bytes; the string it returns is the bytes of the decoded text. -/
def MetaData.LoadPreviousFile (md : MetaData) (read : Except String GoString) :
    Option MetaData :=
  match read with
  | .error _ => some md
  | .ok contents =>
    match Unmarshal ⟨toRunes 0 contents⟩ with
    | none => some md
    | some data =>
      match mapIndex data "since" with
      | some (.str since) => some { md with Since := utf8 since }
      | _ => none

end Bytes

/-- The record of bytes that holds the texts of a record. -/
def ofText (md : MetaData) : Bytes.MetaData :=
  { Since := utf8 md.Since, StartTime := md.StartTime, EndTime := md.EndTime,
    DatabaseName := utf8 md.DatabaseName }

/-! ## `snap/appconfig.go` -/

/-- `AppConfig`: the configuration collected from the command-line flags. -/
structure AppConfig where
  DatabaseName : String
  Deletions : Bool

/-- `NewAppConfig`, given the values the flags parse to. -/
def NewAppConfig (dbname : String) (deletions : Bool) : Except String AppConfig :=
  if dbname = "" then .error "missing dbname/db"
  else .ok { DatabaseName := dbname, Deletions := deletions }

/-! ## The environment: files, the change feed -/

/-- The files: the contents at each path that exists. -/
abbrev FS := String → Option String

/-- The files with the entry at `path` replaced. -/
def FS.set (fs : FS) (path : String) (entry : Option String) : FS :=
  fun p => if p = path then entry else fs p

/-- `os.Rename` when it succeeds. -/
def FS.rename (fs : FS) (oldpath newpath : String) : FS :=
  if oldpath = newpath then fs else (fs.set newpath (fs oldpath)).set oldpath none

/-- A file open for writing: its contents and the offset of the next write. -/
structure OpenFile where
  data : List Char
  pos : Nat

/-- `File.WriteString` of the characters `s`: they go over the contents at the offset. -/
def OpenFile.write (f : OpenFile) (s : List Char) : OpenFile :=
  { data := f.data.take f.pos ++ s ++ f.data.drop (f.pos + s.length),
    pos := f.pos + s.length }

/-- `cloudantv1.Document`: `_id`, `_rev`, `_deleted` and the other members. -/
structure Document where
  ID : Option String
  Rev : Option String
  Deleted : Option Bool
  properties : List (String × String)

/-- `cloudantv1.ChangesResultItem`; all its fields are pointers. -/
structure ChangesResultItem where
  Deleted : Option Bool
  Doc : Option Document
  ID : Option String
  Seq : Option String

/-- What one turn of the loop over `changesCh` meets: the result of
`changesItem.Item()` and, when the turn gets as far as `f.WriteString`, whether that
write fails, with how many characters it still wrote. -/
structure Turn where
  item : Except String ChangesResultItem
  writeErr : Option (String × Nat)

/-- What the environment answers to each request of a run. -/
structure Env where
  /-- `os.ReadFile` failing on a file that exists. -/
  readErr : Option String
  /-- `os.OpenFile` failing. -/
  openErr : Option String
  /-- `features.NewChangesFollower` failing. -/
  followerErr : Option String
  /-- `follower.StartOneOff()`: an error, or the finite content of the channel. -/
  changes : Except String (List Turn)
  /-- `os.Rename` failing. -/
  renameErr : Option String
  /-- `os.WriteFile` failing: before the file is opened (`none`) or in the write, after
  the file was truncated and some characters were written. -/
  writeFileErr : Option (String × Option Nat)
  /-- The reading of `time.Now()` in `RecordEnd`. -/
  endTime : Time

/-- `os.ReadFile`. -/
def ReadFile (env : Env) (fs : FS) (path : String) : Except String String :=
  match fs path with
  | none => .error "no such file or directory"
  | some data =>
    match env.readErr with
    | some e => .error e
    | none => .ok data

/-- The requests a run makes of the environment, in order, with their answers. -/
inductive Op where
  | readFile (path : String)
  | openFile (path : String) (err : Option String)
  | newFollower (since : String) (err : Option String)
  | startOneOff (err : Option String)
  | rename (oldpath newpath : String) (err : Option String)
  | writeFile (path : String) (err : Option String)
  deriving DecidableEq

/-- How a run ends: `Run` returns `nil` or an error, or the program panics. -/
inductive Outcome where
  | returned (err : Option String)
  | panicked
  deriving DecidableEq

/-- A run: how it ended, the files it left, the requests it made, what it printed. -/
structure RunResult where
  outcome : Outcome
  fs : FS
  ops : List Op
  stdout : List String
  meta : MetaData

/-- The variables of the loop over the changes: the output file and `since`. -/
structure LoopState where
  f : OpenFile
  since : String

/-- `os.WriteFile(path, data, 0644)`. -/
def WriteFile (env : Env) (fs : FS) (path : String) (data : String) : FS × Option String :=
  match env.writeFileErr with
  | none => (fs.set path (some data), none)
  | some (e, none) => (fs, some e)
  | some (e, some n) => (fs.set path (some ⟨data.data.take n⟩), some e)

/-- `MetaData.WriteToFile`: `os.WriteFile` of `Output`. -/
def MetaData.WriteToFile (md : MetaData) (env : Env) (fs : FS) (filename : String) :
    FS × Option String :=
  WriteFile env fs filename md.Output

/-- `fmt.Sprintf("%v-meta.json", sanitisedFilename)`. -/
def metaFilenameOf (sanitisedFilename : String) : String :=
  sanitisedFilename ++ "-meta.json"

/-- One turn of a loop: go on with the next item, or panic. -/
inductive Step where
  | next (st : LoopState)
  | panic (st : LoopState)

/-- The loop `for changesItem := range changesCh` over a body `body`: it ends when the
channel is drained, or in the turn that panics. -/
def changesLoop (body : LoopState → Turn → Step) : LoopState → List Turn → Step
  | st, [] => .next st
  | st, t :: ts =>
    match body st t with
    | .next st1 => changesLoop body st1 ts
    | .panic st1 => .panic st1

/-- The `since` the request carries: `SetSince(meta.Since)` when `len(meta.Since) > 0`,
else `SetSince("0")`. -/
def requestSince (meta : MetaData) : String :=
  if 0 < meta.Since.length then meta.Since else "0"

/-! ## `internal/app/snap.go`

The package's `MetaData` and `AppConfig` are the ones of `snap/meta.go` and
`snap/appconfig.go`, the copies of these files that are among the sources. -/

namespace App

/-- `CloudantSnap` stores everything needed for an execution (the SDK client apart). -/
structure CloudantSnap where
  appConfig : AppConfig
  meta : MetaData
  sanitisedFilename : String
  metaFilename : String
  filename : String
  tmpFilename : String

/-- `sanitiseDatabaseName`: `strings.ReplaceAll(databaseName, " ", "_")`. -/
def sanitiseDatabaseName (databaseName : String) : String :=
  ReplaceAll databaseName " " "_"

/-- `generateFilename`; `timestamp` is `time.Now().Format(time.RFC3339)`. -/
def generateFilename (databaseName timestamp : String) : String :=
  databaseName ++ "-snapshot-" ++ timestamp ++ ".jsonl"

/-- `New`, given the values of the flags, whether the SDK client can be set up, and the
readings of the clock. -/
def New (dbname : String) (deletions : Bool) (serviceErr : Option String)
    (now : Time) (timestamp : String) : Except String CloudantSnap :=
  match NewAppConfig dbname deletions with
  | .error e => .error e
  | .ok appConfig =>
    match serviceErr with
    | some e => .error e
    | none =>
      let sanitisedFilename := sanitiseDatabaseName appConfig.DatabaseName
      let filename := generateFilename sanitisedFilename timestamp
      .ok { appConfig := appConfig
            meta := NewMetaData appConfig.DatabaseName now
            sanitisedFilename := sanitisedFilename
            metaFilename := metaFilenameOf sanitisedFilename
            filename := filename
            tmpFilename := "_tmp_" ++ filename }

/-- The body of the loop in `Run`; `marshal` is `json.Marshal` on a document. -/
def body (marshal : Document → Except String String) (deletions : Bool)
    (st : LoopState) (t : Turn) : Step :=
  match t.item with
  | .error _ => .next st
  | .ok item =>
    if item.Deleted = some true ∧ deletions = false then .next st
    else
      match item.Doc with
      | none => .panic st
      | some doc =>
        match marshal { doc with Rev := none } with
        | .error _ => .next st
        | .ok outputStr =>
          match t.writeErr with
          | some (_, n) => .next { st with f := st.f.write ((outputStr ++ "\n").data.take n) }
          | none =>
            let f := st.f.write (outputStr ++ "\n").data
            match item.Seq with
            | some seq => .next { f := f, since := seq }
            | none => .next { f := f, since := st.since }

/-- `CloudantSnap.Run`. -/
def Run (marshal : Document → Except String String) (cs : CloudantSnap) (env : Env)
    (fs : FS) : RunResult :=
  let ops0 := [Op.readFile cs.metaFilename]
  match cs.meta.LoadPreviousFile (ReadFile env fs cs.metaFilename) with
  | none => { outcome := .panicked, fs := fs, ops := ops0, stdout := [], meta := cs.meta }
  | some meta =>
    let out := ["spooling changes for " ++ cs.appConfig.DatabaseName ++ " since " ++
      meta.GetTruncatedSince, cs.filename]
    match env.openErr with
    | some e =>
      { outcome := .returned (some e), fs := fs,
        ops := ops0 ++ [.openFile cs.tmpFilename (some e)], stdout := out, meta := meta }
    | none =>
      let fs1 := fs.set cs.tmpFilename (some "")
      let ops1 := ops0 ++ [.openFile cs.tmpFilename none]
      match env.followerErr with
      | some e =>
        { outcome := .returned (some e), fs := fs1,
          ops := ops1 ++ [.newFollower (requestSince meta) (some e)], stdout := out,
          meta := meta }
      | none =>
        let ops2 := ops1 ++ [.newFollower (requestSince meta) none]
        match env.changes with
        | .error e =>
          { outcome := .returned (some e), fs := fs1, ops := ops2 ++ [.startOneOff (some e)],
            stdout := out, meta := meta }
        | .ok turns =>
          let ops3 := ops2 ++ [.startOneOff none]
          match changesLoop (body marshal cs.appConfig.Deletions)
              { f := { data := [], pos := 0 }, since := meta.Since } turns with
          | .panic st =>
            { outcome := .panicked, fs := fs1.set cs.tmpFilename (some ⟨st.f.data⟩),
              ops := ops3, stdout := out, meta := meta }
          | .next st =>
            let fs2 := fs1.set cs.tmpFilename (some ⟨st.f.data⟩)
            match env.renameErr with
            | some e =>
              { outcome := .returned (some e), fs := fs2,
                ops := ops3 ++ [.rename cs.tmpFilename cs.filename (some e)], stdout := out,
                meta := meta }
            | none =>
              let fs3 := fs2.rename cs.tmpFilename cs.filename
              let ops4 := ops3 ++ [.rename cs.tmpFilename cs.filename none]
              let meta1 := meta.RecordEnd st.since env.endTime
              match meta1.WriteToFile env fs3 cs.metaFilename with
              | (fs4, some e) =>
                { outcome := .returned (some e), fs := fs4,
                  ops := ops4 ++ [.writeFile cs.metaFilename (some e)], stdout := out,
                  meta := meta1 }
              | (fs4, none) =>
                { outcome := .returned none, fs := fs4,
                  ops := ops4 ++ [.writeFile cs.metaFilename none],
                  stdout := out ++ [cs.metaFilename], meta := meta1 }

end App

/-! ## `snap/snap.go` -/

namespace Snap

/-- `CloudantSnap`: the command-line options (the SDK client apart). -/
structure CloudantSnap where
  appConfig : AppConfig

/-- `sanitiseDatabaseName`: `strings.ReplaceAll(databaseName, " ", "_")`. -/
def sanitiseDatabaseName (databaseName : String) : String :=
  ReplaceAll databaseName " " "_"

/-- `generateFilename`; `timestamp` is `time.Now().Format(time.RFC3339)`. -/
def generateFilename (databaseName timestamp : String) : String :=
  databaseName ++ "-snapshot-" ++ timestamp ++ ".jsonl"

/-- The body of the loop in `Run`: no test for deletions, and `*item.Seq` without a
test for nil, after the line was written. -/
def body (marshal : Document → Except String String) (st : LoopState) (t : Turn) : Step :=
  match t.item with
  | .error _ => .next st
  | .ok item =>
    match item.Doc with
    | none => .panic st
    | some doc =>
      match marshal { doc with Rev := none } with
      | .error _ => .next st
      | .ok outputStr =>
        match t.writeErr with
        | some (_, n) => .next { st with f := st.f.write ((outputStr ++ "\n").data.take n) }
        | none =>
          let f := st.f.write (outputStr ++ "\n").data
          match item.Seq with
          | some seq => .next { f := f, since := seq }
          | none => .panic { f := f, since := st.since }

/-- `CloudantSnap.Run`; `now` and `timestamp` are the readings of the clock in
`NewMetaData` and in `generateFilename`. The file is opened without `O_TRUNC`: what it
held stays, and the writes go over it from the start. -/
def Run (marshal : Document → Except String String) (cs : CloudantSnap) (now : Time)
    (timestamp : String) (env : Env) (fs : FS) : RunResult :=
  let meta0 := NewMetaData cs.appConfig.DatabaseName now
  let sanitisedFilename := sanitiseDatabaseName cs.appConfig.DatabaseName
  let metaFilename := metaFilenameOf sanitisedFilename
  let ops0 := [Op.readFile metaFilename]
  match meta0.LoadPreviousFile (ReadFile env fs metaFilename) with
  | none => { outcome := .panicked, fs := fs, ops := ops0, stdout := [], meta := meta0 }
  | some meta =>
    let filename := generateFilename sanitisedFilename timestamp
    let tmpFilename := "_tmp_" ++ filename
    let out := ["spooling changes for " ++ cs.appConfig.DatabaseName ++ " since " ++
      meta.GetTruncatedSince, filename]
    match env.openErr with
    | some e =>
      { outcome := .returned (some e), fs := fs,
        ops := ops0 ++ [.openFile tmpFilename (some e)], stdout := out, meta := meta }
    | none =>
      let held := (fs tmpFilename).getD ""
      let fs1 := fs.set tmpFilename (some held)
      let ops1 := ops0 ++ [.openFile tmpFilename none]
      match env.followerErr with
      | some e =>
        { outcome := .returned (some e), fs := fs1,
          ops := ops1 ++ [.newFollower (requestSince meta) (some e)], stdout := out,
          meta := meta }
      | none =>
        let ops2 := ops1 ++ [.newFollower (requestSince meta) none]
        match env.changes with
        | .error e =>
          { outcome := .returned (some e), fs := fs1, ops := ops2 ++ [.startOneOff (some e)],
            stdout := out, meta := meta }
        | .ok turns =>
          let ops3 := ops2 ++ [.startOneOff none]
          match changesLoop (body marshal)
              { f := { data := held.data, pos := 0 }, since := meta.Since } turns with
          | .panic st =>
            { outcome := .panicked, fs := fs1.set tmpFilename (some ⟨st.f.data⟩),
              ops := ops3, stdout := out, meta := meta }
          | .next st =>
            let fs2 := fs1.set tmpFilename (some ⟨st.f.data⟩)
            match env.renameErr with
            | some e =>
              { outcome := .returned (some e), fs := fs2,
                ops := ops3 ++ [.rename tmpFilename filename (some e)], stdout := out,
                meta := meta }
            | none =>
              let fs3 := fs2.rename tmpFilename filename
              let ops4 := ops3 ++ [.rename tmpFilename filename none]
              let meta1 := meta.RecordEnd st.since env.endTime
              { outcome := .returned none,
                fs := (meta1.WriteToFile env fs3 metaFilename).1,
                ops := ops4 ++ [.writeFile metaFilename (meta1.WriteToFile env fs3
                  metaFilename).2],
                stdout := out ++ [metaFilename], meta := meta1 }

end Snap

/-! ## Reading a run -/

/-- The `since` of the request for the change feed, when the run made one. -/
def RunResult.requested (r : RunResult) : Option String :=
  r.ops.findSome? fun op =>
    match op with
    | .newFollower since _ => some since
    | _ => none

/-- The item of a turn, when the feed delivered one. -/
def Turn.retrieved (t : Turn) : Option ChangesResultItem :=
  match t.item with
  | .ok item => some item
  | .error _ => none

/-- An event that represents a deletion. -/
def isDeletion (item : ChangesResultItem) : Bool := item.Deleted = some true

/-- The line of a document: its JSON with the revision cleared, and a newline. -/
def lineOfDoc (marshal : Document → Except String String) (doc : Document) : Option String :=
  match marshal { doc with Rev := none } with
  | .ok outputStr => some (outputStr ++ "\n")
  | .error _ => none

/-- The line of an event, when it has a document that serializes. -/
def lineOf (marshal : Document → Except String String) (item : ChangesResultItem) :
    Option String :=
  item.Doc.bind (lineOfDoc marshal)

/-- The events of a feed a run keeps: the retrieved ones, without the deletions unless
deletions are enabled. -/
def keptEvents (deletions : Bool) (turns : List Turn) : List ChangesResultItem :=
  (turns.filterMap Turn.retrieved).filter fun item => deletions || !isDeletion item

/-- The text of a list of lines. -/
def concatLines : List String → String
  | [] => ""
  | l :: ls => l ++ concatLines ls

/-- The lines of the kept events, in feed order. -/
def artifactLines (marshal : Document → Except String String) (deletions : Bool)
    (turns : List Turn) : List String :=
  (keptEvents deletions turns).filterMap (lineOf marshal)

/-- A turn in which a kept event has a document, serializes and is written. -/
def Turn.succeeds (marshal : Document → Except String String) (deletions : Bool)
    (t : Turn) : Bool :=
  match t.item with
  | .error _ => true
  | .ok item =>
    (!deletions && isDeletion item) || ((lineOf marshal item).isSome && t.writeErr.isNone)

/-- A turn that dereferences a nil `Doc`: a retrieved event that is not filtered out
and has no document. -/
def Turn.nilDoc (deletions : Bool) (t : Turn) : Bool :=
  match t.item with
  | .error _ => false
  | .ok item => !(!deletions && isDeletion item) && item.Doc.isNone

/-- The token a turn moves the cursor to, if it does: the event is retrieved, is not
filtered out, serializes, is written, and carries a token. -/
def Turn.advancesTo (marshal : Document → Except String String) (deletions : Bool)
    (t : Turn) : Option String :=
  match t.item with
  | .error _ => none
  | .ok item =>
    if !deletions && isDeletion item then none
    else if (lineOf marshal item).isSome && t.writeErr.isNone then item.Seq
    else none

/-- The cursor at the end of the loop: the last token a turn moved it to, or the one
it started with. -/
def finalCursor (marshal : Document → Except String String) (deletions : Bool)
    (since : String) (turns : List Turn) : String :=
  ((turns.filterMap (Turn.advancesTo marshal deletions)).getLast?).getD since

/-- A per-item error: the feed yields a failed item, or the document of a kept event
does not serialize, or its line is not written. -/
def Turn.perItemError (marshal : Document → Except String String) (deletions : Bool)
    (t : Turn) : Bool :=
  match t.item with
  | .error _ => true
  | .ok item =>
    !(!deletions && isDeletion item) &&
      match item.Doc with
      | none => false
      | some doc => (lineOfDoc marshal doc).isNone || t.writeErr.isSome

/-- A per-item error that leaves nothing in the output file: all but a failed write
that still wrote some characters. -/
def Turn.writesNothing (marshal : Document → Except String String) (t : Turn) : Bool :=
  match t.item with
  | .error _ => true
  | .ok item =>
    match item.Doc with
    | none => true
    | some doc =>
      (lineOfDoc marshal doc).isNone ||
        match t.writeErr with
        | some (_, n) => n == 0
        | none => false

/-- A turn in which nothing fails: the event is retrieved, carries a document and a
sequence token, serializes and is written. -/
def Turn.clean (marshal : Document → Except String String) (t : Turn) : Bool :=
  match t.item with
  | .error _ => false
  | .ok item => (lineOf marshal item).isSome && item.Seq.isSome && t.writeErr.isNone

/-- A turn whose event is a deletion. -/
def Turn.deletion (t : Turn) : Bool :=
  match t.item with
  | .error _ => false
  | .ok item => isDeletion item

/-- The variables of the loop at the end of a turn. -/
def Step.state : Step → LoopState
  | .next st => st
  | .panic st => st

/-- Whether the turn panicked. -/
def Step.panics : Step → Bool
  | .next _ => false
  | .panic _ => true

/-- What `Run` of `internal/app` does once the loop over the changes is over, from the
files `fs1` at that point: the panic goes on, or the file is renamed and the checkpoint
written. The lines of `Run` after the loop, for the statements about them. -/
def App.afterLoop (cs : App.CloudantSnap) (env : Env) (fs1 : FS) (meta : MetaData)
    (ops3 : List Op) (out : List String) (result : Step) : RunResult :=
  match result with
  | .panic st =>
    { outcome := .panicked, fs := fs1.set cs.tmpFilename (some ⟨st.f.data⟩),
      ops := ops3, stdout := out, meta := meta }
  | .next st =>
    match env.renameErr with
    | some e =>
      { outcome := .returned (some e), fs := fs1.set cs.tmpFilename (some ⟨st.f.data⟩),
        ops := ops3 ++ [.rename cs.tmpFilename cs.filename (some e)], stdout := out,
        meta := meta }
    | none =>
      match (meta.RecordEnd st.since env.endTime).WriteToFile env
          ((fs1.set cs.tmpFilename (some ⟨st.f.data⟩)).rename cs.tmpFilename cs.filename)
          cs.metaFilename with
      | (fs4, some e) =>
        { outcome := .returned (some e), fs := fs4,
          ops := ops3 ++ [.rename cs.tmpFilename cs.filename none] ++
            [.writeFile cs.metaFilename (some e)],
          stdout := out, meta := meta.RecordEnd st.since env.endTime }
      | (fs4, none) =>
        { outcome := .returned none, fs := fs4,
          ops := ops3 ++ [.rename cs.tmpFilename cs.filename none] ++
            [.writeFile cs.metaFilename none],
          stdout := out ++ [cs.metaFilename], meta := meta.RecordEnd st.since env.endTime }

/-- The requests of a run up to the loop, when none of them fails. -/
def App.opsToLoop (cs : App.CloudantSnap) (meta : MetaData) : List Op :=
  [.readFile cs.metaFilename, .openFile cs.tmpFilename none,
   .newFollower (requestSince meta) none, .startOneOff none]

/-- What a run prints before the loop. -/
def App.printed (cs : App.CloudantSnap) (meta : MetaData) : List String :=
  ["spooling changes for " ++ cs.appConfig.DatabaseName ++ " since " ++
    meta.GetTruncatedSince, cs.filename]

/-! ## Sample data -/

namespace Sample

/-- A reading of the clock. -/
def t0 : Time := ⟨"2024-05-01T10:00:00Z", by decide⟩

/-- A later reading of the clock. -/
def t1 : Time := ⟨"2024-05-01T10:00:07.5Z", by decide⟩

/-- A serializer for documents without other members: `_deleted`, `_id` and `_rev`,
each when present, in the order of their keys, as `json.Marshal` writes the map the SDK
makes of a document. -/
def marshal (doc : Document) : Except String String :=
  .ok ("\x7b" ++ ",".intercalate
    ((match doc.Deleted with
      | some b => ["\"_deleted\":" ++ (if b then "true" else "false")]
      | none => []) ++
     (match doc.ID with
      | some id => ["\"_id\":" ++ encodeString id]
      | none => []) ++
     (match doc.Rev with
      | some rev => ["\"_rev\":" ++ encodeString rev]
      | none => [])) ++ "\x7d")

/-- A serializer that fails on the document `b`. -/
def marshalNotB (doc : Document) : Except String String :=
  if doc.ID = some "b" then .error "json: unsupported value" else marshal doc

/-- An event with a document. -/
def event (id seq : String) : ChangesResultItem :=
  { Deleted := none, ID := some id, Seq := some seq,
    Doc := some { ID := some id, Rev := some "1-967a00dff5e02add41819138abb3284d",
                  Deleted := none, properties := [] } }

/-- A deletion event, with the stub document of the deletion. -/
def deletionEvent (id seq : String) : ChangesResultItem :=
  { Deleted := some true, ID := some id, Seq := some seq,
    Doc := some { ID := some id, Rev := some "2-eec205a9d413992850a6e32678485900",
                  Deleted := some true, properties := [] } }

/-- The turn of event `a`. -/
def turnA : Turn := { item := .ok (event "a" "1-g1AAAA"), writeErr := none }

/-- The turn of the deletion `b`. -/
def turnB : Turn := { item := .ok (deletionEvent "b" "2-g1BBBB"), writeErr := none }

/-- The turn of event `b`, not a deletion. -/
def turnB1 : Turn := { item := .ok (event "b" "2-g1BBBB"), writeErr := none }

/-- The turn of event `c`. -/
def turnC : Turn := { item := .ok (event "c" "3-g1CCCC"), writeErr := none }

/-- The turn of an event `c` that carries no document. -/
def turnNoDoc : Turn :=
  { item := .ok { Deleted := none, Doc := none, ID := some "c", Seq := some "3-g1CCCC" },
    writeErr := none }

/-- A turn in which the feed yields a failed item. -/
def turnFailed : Turn := { item := .error "request failed", writeErr := none }

/-- The run configuration for the database `my db`, deletions disabled. -/
def cs : App.CloudantSnap :=
  { appConfig := { DatabaseName := "my db", Deletions := false }
    meta := NewMetaData "my db" t0
    sanitisedFilename := "my_db"
    metaFilename := "my_db-meta.json"
    filename := "my_db-snapshot-2024-05-01T10:00:00Z.jsonl"
    tmpFilename := "_tmp_my_db-snapshot-2024-05-01T10:00:00Z.jsonl" }

/-- An environment in which nothing fails, with the feed `turns`. -/
def env (turns : List Turn) : Env :=
  { readErr := none, openErr := none, followerErr := none, changes := .ok turns,
    renameErr := none, writeFileErr := none, endTime := t1 }

/-- An environment in which the rename fails. -/
def envRenameFails (turns : List Turn) : Env :=
  { env turns with renameErr := some "rename: permission denied" }

/-- An environment in which the temporary file cannot be opened. -/
def envOpenFails (turns : List Turn) : Env :=
  { env turns with openErr := some "open: permission denied" }

/-- An environment in which the change feed cannot be opened. -/
def envFeedFails : Env :=
  { env [] with changes := .error "changes: not found" }

/-- A cursor that is not valid UTF-8: the bytes `a`, `FF`, `b`. -/
def rawCursor : GoString := [0x61, 0xFF, 0x62]

/-- No files. -/
def noFiles : FS := fun _ => none

/-- The checkpoint of an earlier run, with the cursor `1-g1AAAA`. -/
def oldCheckpoint : String := (MetaData.RecordEnd (NewMetaData "my db" t0) "1-g1AAAA" t0).Output

/-- The files after an earlier run: its checkpoint. -/
def checkpointOnly : FS := noFiles.set "my_db-meta.json" (some oldCheckpoint)

end Sample

/-! # Theorems -/

/-! ## Decoding what the encoder writes -/

theorem hexVal_hexDigit (k : Nat) (hk : k < 16) : hexVal (hexDigit k) = some k := by
  interval_cases k <;> decide

theorem hex4_byte (n : Nat) (hn : n < 256) :
    hex4 '0' '0' (hexDigit (n / 16)) (hexDigit (n % 16)) = some n := by
  have h1 : hexVal (hexDigit (n / 16)) = some (n / 16) := hexVal_hexDigit _ (by omega)
  have h2 : hexVal (hexDigit (n % 16)) = some (n % 16) := hexVal_hexDigit _ (by omega)
  have h0 : hexVal '0' = some 0 := by decide
  simp only [hex4, h0, h1, h2]
  congr 1; omega

theorem decodeOne_plain (c : Char) (rest : List Char) (hb : c ≠ '\\')
    (hc : ¬ c.val < 0x20) : decodeOne c rest = some (c, 0) := by
  unfold decodeOne
  rw [if_neg hb, if_neg hc]

theorem decodeOne_simple (e ch : Char) (rest : List Char) (h : simpleEscape e = some ch)
    (hu : e ≠ 'u') : decodeOne '\\' (e :: rest) = some (ch, 1) := by
  simp only [decodeOne, if_true, if_neg hu, h]

theorem decodeOne_u00 (n : Nat) (hn : n < 256) (rest : List Char) :
    decodeOne '\\' ('u' :: '0' :: '0' :: hexDigit (n / 16) :: hexDigit (n % 16) :: rest)
      = some (Char.ofNat n, 5) := by
  have hs : isSurrogate n = false := by
    simp [isSurrogate]; omega
  simp [decodeOne, hex4_byte n hn, hs]

theorem decodeOne_u202 (k : Nat) (hk : k < 16) (rest : List Char) :
    decodeOne '\\' ('u' :: '2' :: '0' :: '2' :: hexDigit k :: rest)
      = some (Char.ofNat (0x2020 + k), 5) := by
  have h1 : hexVal (hexDigit k) = some k := hexVal_hexDigit _ hk
  have h0 : hexVal '0' = some 0 := by decide
  have h2 : hexVal '2' = some 2 := by decide
  have hs : isSurrogate (0x2020 + k) = false := by
    simp [isSurrogate]; omega
  have e : ((2 * 16 + 0) * 16 + 2) * 16 + k = 0x2020 + k := by omega
  simp [decodeOne, hex4, h0, h1, h2, e, hs]

/-- What the decoder makes of the escape of one character. -/
theorem decodeOne_escapeChar (c : Char) (rest : List Char) :
    ∃ hd tl, escapeChar c = hd :: tl ∧ hd ≠ '"' ∧
      decodeOne hd (tl ++ rest) = some (c, tl.length) := by
  unfold escapeChar
  split_ifs with h1 h2 h3 h4 h5 h6 h7 h8 h9
  · -- safe ASCII
    simp only [htmlSafe, Bool.and_eq_true, decide_eq_true_eq, Bool.not_eq_true',
      Bool.or_eq_false_iff, decide_eq_false_iff_not] at h2
    obtain ⟨h20, ⟨⟨⟨⟨hq, _⟩, _⟩, _⟩, hb⟩⟩ := h2
    exact ⟨c, [], rfl, hq, decodeOne_plain c _ hb (by simpa using h20)⟩
  · rcases h3 with h3 | h3 <;> subst h3
    · exact ⟨_, _, rfl, by decide, decodeOne_simple _ _ rest (by decide) (by decide)⟩
    · exact ⟨_, _, rfl, by decide, decodeOne_simple _ _ rest (by decide) (by decide)⟩
  · subst h4; exact ⟨_, _, rfl, by decide, decodeOne_simple _ _ rest (by decide) (by decide)⟩
  · subst h5; exact ⟨_, _, rfl, by decide, decodeOne_simple _ _ rest (by decide) (by decide)⟩
  · subst h6; exact ⟨_, _, rfl, by decide, decodeOne_simple _ _ rest (by decide) (by decide)⟩
  · subst h7; exact ⟨_, _, rfl, by decide, decodeOne_simple _ _ rest (by decide) (by decide)⟩
  · subst h8; exact ⟨_, _, rfl, by decide, decodeOne_simple _ _ rest (by decide) (by decide)⟩
  · have hn : c.toNat < 256 := by
      have : c.val.toNat < 128 := h1
      show c.val.toNat < 256
      omega
    refine ⟨_, _, rfl, by decide, ?_⟩
    have := decodeOne_u00 c.toNat hn rest
    simpa [Char.ofNat_toNat] using this
  · refine ⟨_, _, rfl, by decide, ?_⟩
    rcases h9 with h9 | h9 <;> subst h9
    · exact decodeOne_u202 8 (by decide) rest
    · exact decodeOne_u202 9 (by decide) rest
  · have hq : c ≠ '"' := by rintro rfl; exact h1 (by decide)
    have hb : c ≠ '\\' := by rintro rfl; exact h1 (by decide)
    refine ⟨c, [], rfl, hq, decodeOne_plain c _ hb ?_⟩
    intro h; apply h1
    have h' : c.val.toNat < 0x20 := h
    show c.val.toNat < 0x80
    omega

theorem parseStringFrom_skip (pre rest : List Char) :
    parseStringFrom pre.length (pre ++ rest) = parseStringFrom 0 rest := by
  induction pre with
  | nil => rfl
  | cons c cs ih => simpa [parseStringFrom] using ih

/-- Decoding what the encoder writes for a string gives the string back. -/
theorem parseString_escapeChars (s rest : List Char) :
    parseString (escapeChars s ++ '"' :: rest) = some (s, rest) := by
  unfold parseString
  induction s with
  | nil => simp [escapeChars, parseStringFrom]
  | cons c cs ih =>
    obtain ⟨hd, tl, he, hq, hd1⟩ := decodeOne_escapeChar c (escapeChars cs ++ '"' :: rest)
    simp only [escapeChars, he, List.cons_append, List.append_assoc]
    rw [parseStringFrom, if_neg hq, hd1]
    simp only [parseStringFrom_skip, ih, consChar]

theorem escapeChar_timeChar (c : Char) (h : timeChar c = true) : escapeChar c = [c] := by
  have hlt : c.val < 0x80 ∧ htmlSafe c = true := by
    simp only [timeChar, Bool.or_eq_true, decide_eq_true_eq, Char.isDigit, Bool.and_eq_true] at h
    rcases h with (((((h | h) | h) | h) | h) | h) | h
    · obtain ⟨h1, h2⟩ := h
      have h1' : 48 ≤ c.val.toNat := h1
      have h2' : c.val.toNat ≤ 57 := h2
      have a : c.val.toNat < 0x80 := by omega
      refine ⟨a, ?_⟩
      have q : c ≠ '"' := by rintro rfl; revert h1'; decide
      have q2 : c ≠ '&' := by rintro rfl; revert h1'; decide
      have q3 : c ≠ '<' := by rintro rfl; revert h2'; decide
      have q4 : c ≠ '>' := by rintro rfl; revert h2'; decide
      have q5 : c ≠ '\\' := by rintro rfl; revert h2'; decide
      have q6 : (0x20 : UInt32) ≤ c.val := by
        show (32 : Nat) ≤ c.val.toNat
        omega
      simp [htmlSafe, q, q2, q3, q4, q5, q6]
    all_goals (subst h; decide)
  unfold escapeChar
  rw [if_pos hlt.1, if_pos hlt.2]

theorem escapeChars_time (t : List Char) (h : t.all timeChar = true) : escapeChars t = t := by
  induction t with
  | nil => rfl
  | cons c cs ih =>
    simp only [List.all_cons, Bool.and_eq_true] at h
    simp [escapeChars, escapeChar_timeChar c h.1, ih h.2]

theorem parseString_time (t : Time) (rest : List Char) :
    parseString (t.text.data ++ '"' :: rest) = some (t.text.data, rest) := by
  have := parseString_escapeChars t.text.data rest
  rwa [escapeChars_time _ t.plain] at this

theorem parseValue_string (f d : Nat) (X v rest : List Char)
    (h : parseString X = some (v, rest)) :
    parseValue (f + 1) d ('"' :: X) = some (.str ⟨v⟩, rest) := by
  simp [parseValue, skipSpace, isSpace, startOf, h]

theorem parseMembers_last (f d : Nat) (K V key val rest : List Char)
    (hk : parseString K = some (key, ':' :: '"' :: V))
    (hv : parseString V = some (val, '}' :: rest)) :
    parseMembers (f + 2) d ('"' :: K) = some ([(⟨key⟩, .str ⟨val⟩)], rest) := by
  rw [parseMembers]
  simp [skipSpace, isSpace, hk, parseValue_string f d V val _ hv]

theorem parseMembers_more (f d : Nat) (K V key val R : List Char)
    (ms : List (String × JSON)) (r : List Char)
    (hk : parseString K = some (key, ':' :: '"' :: V))
    (hv : parseString V = some (val, ',' :: R))
    (hm : parseMembers (f + 1) d R = some (ms, r)) :
    parseMembers (f + 2) d ('"' :: K) = some ((⟨key⟩, .str ⟨val⟩) :: ms, r) := by
  rw [parseMembers]
  simp [skipSpace, isSpace, hk, parseValue_string f d V val _ hv, hm]

/-- The characters of `Output`. -/
theorem Output_data (md : MetaData) :
    md.Output.data = '{' :: '"' :: ("since".data ++ '"' :: ':' :: '"' ::
      (escapeChars md.Since.data ++ '"' :: ',' :: '"' :: ("startTime".data ++ '"' :: ':' :: '"' ::
      (md.StartTime.text.data ++ '"' :: ',' :: '"' :: ("endTime".data ++ '"' :: ':' :: '"' ::
      (md.EndTime.text.data ++ '"' :: ',' :: '"' :: ("db".data ++ '"' :: ':' :: '"' ::
      (escapeChars md.DatabaseName.data ++ '"' :: '}' :: [])))))))) := by
  simp [MetaData.Output, encodeString]

theorem parseString_key (k : List Char) (hk : escapeChars k = k) (rest : List Char) :
    parseString (k ++ '"' :: rest) = some (k, rest) := by
  have := parseString_escapeChars k rest
  rwa [hk] at this

theorem parseValue_object (f d : Nat) (K : List Char) (ms : List (String × JSON))
    (r : List Char) (hd : d < maxNestingDepth)
    (hm : parseMembers f (d + 1) ('"' :: K) = some (ms, r)) :
    parseValue (f + 1) d ('{' :: '"' :: K) = some (.obj ms, r) := by
  rw [parseValue]
  simp only [skipSpace, isSpace, startOf]
  simp [Nat.not_le.mpr hd, skipSpace, isSpace, hm]

/-- Decoding the text of `Output` gives the four members back. -/
theorem Unmarshal_Output (md : MetaData) :
    Unmarshal md.Output = some [("since", .str md.Since), ("startTime", .str md.StartTime.text),
      ("endTime", .str md.EndTime.text), ("db", .str md.DatabaseName)] := by
  have hlen : 6 ≤ md.Output.length := by
    rw [String.length, Output_data]; simp
  obtain ⟨k, hk⟩ : ∃ k, 2 * md.Output.length + 1 = k + 6 + 1 :=
    ⟨2 * md.Output.length - 6, by omega⟩
  have h4 := parseMembers_last (k + 1) 1 _ _ "db".data md.DatabaseName.data []
    (parseString_key "db".data (by decide) _) (parseString_escapeChars md.DatabaseName.data _)
  have h3 := parseMembers_more (k + 2) 1 _ _ "endTime".data md.EndTime.text.data _ _ _
    (parseString_key "endTime".data (by decide) _) (parseString_time md.EndTime _) h4
  have h2 := parseMembers_more (k + 3) 1 _ _ "startTime".data md.StartTime.text.data _ _ _
    (parseString_key "startTime".data (by decide) _) (parseString_time md.StartTime _) h3
  have h1 := parseMembers_more (k + 4) 1 _ _ "since".data md.Since.data _ _ _
    (parseString_key "since".data (by decide) _) (parseString_escapeChars md.Since.data _) h2
  have hv : parseValue (2 * md.Output.length + 1) 0 md.Output.data =
      some (.obj [("since", .str md.Since), ("startTime", .str md.StartTime.text),
        ("endTime", .str md.EndTime.text), ("db", .str md.DatabaseName)], []) := by
    rw [hk, Output_data]
    exact parseValue_object (k + 4 + 2) 0 _ _ _ (by decide) h1
  simp [Unmarshal, parseDocument, hv, skipSpace]

/-- Loading what a run saved gives its cursor back. -/
theorem LoadPreviousFile_Output (md0 md : MetaData) :
    md0.LoadPreviousFile (.ok md.Output) = some { md0 with Since := md.Since } := by
  simp [MetaData.LoadPreviousFile, Unmarshal_Output, mapIndex, List.find?]

theorem float64Overflow_eq : float64Overflow = 2 ^ 1024 - 2 ^ 970 := by
  have h1 : (2 ^ 97) ^ 10 = 2 ^ 970 := by rw [← pow_mul]
  have h2 : (2 : Nat) ^ 1024 = 2 ^ 970 * 2 ^ 54 := by rw [← pow_add]
  rw [float64Overflow, h1, h2, Nat.mul_sub, Nat.mul_one]

/-! ## The fuel of the JSON parser is never used up -/

theorem skipSpace_length (s : List Char) : (skipSpace s).length ≤ s.length := by
  induction s with
  | nil => simp [skipSpace]
  | cons c cs ih =>
    rw [skipSpace]
    split
    · exact Nat.le_succ_of_le ih
    · exact Nat.le_refl _

theorem consChar_some (c : Char) (r : Option (List Char × List Char)) (x rest : List Char)
    (h : consChar c r = some (x, rest)) : ∃ y, r = some (y, rest) := by
  cases r with
  | none => simp [consChar] at h
  | some p =>
    rcases p with ⟨y, r1⟩
    simp only [consChar, Option.some.injEq, Prod.mk.injEq] at h
    exact ⟨y, by rw [h.2]⟩

theorem parseStringFrom_length (s : List Char) :
    ∀ n x rest, parseStringFrom n s = some (x, rest) → rest.length < s.length := by
  induction s with
  | nil =>
    intro n x rest h
    cases n <;> simp [parseStringFrom] at h
  | cons c cs ih =>
    intro n x rest h
    cases n with
    | succ n =>
      rw [parseStringFrom] at h
      exact Nat.lt_succ_of_lt (ih n x rest h)
    | zero =>
      rw [parseStringFrom] at h
      split at h
      · simp only [Option.some.injEq, Prod.mk.injEq] at h
        rw [← h.2]; exact Nat.lt_succ_self _
      · split at h
        · exact absurd h (by simp)
        · next ch used hdec =>
          obtain ⟨y, hy⟩ := consChar_some _ _ _ _ h
          exact Nat.lt_succ_of_lt (ih used y rest hy)

theorem takeDigits_length (s : List Char) : (takeDigits s).2.length ≤ s.length := by
  induction s with
  | nil => simp [takeDigits]
  | cons c cs ih =>
    rw [takeDigits]
    split
    · exact Nat.le_succ_of_le ih
    · exact Nat.le_refl _

theorem parseInt_length (s i rest : List Char) (h : parseInt s = some (i, rest)) :
    rest.length ≤ s.length := by
  unfold parseInt at h
  split at h
  · exact absurd h (by simp)
  · next c cs =>
    split at h
    · simp only [Option.some.injEq, Prod.mk.injEq] at h
      rw [← h.2]; exact Nat.le_succ _
    · split at h
      · simp only [Option.some.injEq, Prod.mk.injEq] at h
        rw [← h.2]; exact Nat.le_succ_of_le (takeDigits_length cs)
      · exact absurd h (by simp)

theorem parseFrac_length (s f rest : List Char) (h : parseFrac s = some (f, rest)) :
    rest.length ≤ s.length := by
  unfold parseFrac at h
  split at h
  · next c cs =>
    split at h
    · have hl := takeDigits_length cs
      split at h
      · exact absurd h (by simp)
      · next ds r1 hne heq =>
        simp only [Option.some.injEq, Prod.mk.injEq] at h
        rw [heq] at hl
        rw [← h.2]; exact Nat.le_succ_of_le hl
    · simp only [Option.some.injEq, Prod.mk.injEq] at h
      rw [← h.2]
  · simp only [Option.some.injEq, Prod.mk.injEq] at h
    rw [← h.2]

theorem parseExp_length (s : List Char) (neg : Bool) (e rest : List Char)
    (h : parseExp s = some (neg, e, rest)) : rest.length ≤ s.length := by
  unfold parseExp at h
  split at h
  · next c cs =>
    split at h
    · split at h
      · next sign cs1 =>
        split at h
        · have hl := takeDigits_length cs1
          split at h
          · exact absurd h (by simp)
          · next ds r1 hne heq =>
            simp only [Option.some.injEq, Prod.mk.injEq] at h
            rw [heq] at hl
            rw [← h.2.2]
            exact Nat.le_succ_of_le (Nat.le_succ_of_le hl)
        · have hl := takeDigits_length (sign :: cs1)
          split at h
          · exact absurd h (by simp)
          · next ds r1 hne heq =>
            simp only [Option.some.injEq, Prod.mk.injEq] at h
            rw [heq] at hl
            rw [← h.2.2]
            exact Nat.le_succ_of_le hl
      · exact absurd h (by simp)
    · simp only [Option.some.injEq, Prod.mk.injEq] at h
      rw [← h.2.2]
  · simp only [Option.some.injEq, Prod.mk.injEq] at h
    rw [← h.2.2]

theorem parseNumber_length (s : List Char) (n : NumLit) (rest : List Char)
    (h : parseNumber s = some (n, rest)) : rest.length ≤ s.length := by
  unfold parseNumber at h
  split at h
  · exact absurd h (by simp)
  · next i s1 hi =>
    split at h
    · exact absurd h (by simp)
    · next f s2 hf =>
      split at h
      · exact absurd h (by simp)
      · next neg e s3 he =>
        simp only [Option.some.injEq, Prod.mk.injEq] at h
        rw [← h.2]
        exact Nat.le_trans (parseExp_length _ _ _ _ he)
          (Nat.le_trans (parseFrac_length _ _ _ hf) (parseInt_length _ _ _ hi))

/-- What `startOf` leaves is not longer than what it was given. -/
theorem startOf_scalar_length (s : List Char) (v : JSON) (rest : List Char)
    (h : startOf s = .scalar v rest) : rest.length ≤ s.length := by
  unfold startOf at h
  split at h
  · exact absurd h (by simp)
  · next c cs =>
    split at h
    · exact absurd h (by simp)
    · split at h
      · exact absurd h (by simp)
      · split at h
        · split at h
          · next str r hp =>
            simp only [Start.scalar.injEq] at h
            rw [← h.2]
            exact Nat.le_of_lt (Nat.lt_succ_of_lt (parseStringFrom_length cs 0 str r hp))
          · exact absurd h (by simp)
        · split at h
          · split at h
            · next n r hp =>
              split at h
              · exact absurd h (by simp)
              · simp only [Start.scalar.injEq] at h
                rw [← h.2]
                exact Nat.le_succ_of_le (parseNumber_length cs n r hp)
            · exact absurd h (by simp)
          · split at h
            · split at h
              · next n r hp =>
                split at h
                · exact absurd h (by simp)
                · simp only [Start.scalar.injEq] at h
                  rw [← h.2]
                  exact parseNumber_length (c :: cs) n r hp
              · exact absurd h (by simp)
            · split at h
              · simp only [Start.scalar.injEq] at h
                rw [← h.2]
                rw [List.length_drop]; exact Nat.sub_le _ _
              · split at h
                · simp only [Start.scalar.injEq] at h
                  rw [← h.2]
                  rw [List.length_drop]; exact Nat.sub_le _ _
                · split at h
                  · simp only [Start.scalar.injEq] at h
                    rw [← h.2]
                    rw [List.length_drop]; exact Nat.sub_le _ _
                  · exact absurd h (by simp)

theorem startOf_array (s rest : List Char) (h : startOf s = .array rest) :
    s = '[' :: rest := by
  unfold startOf at h
  split at h
  · exact absurd h (by simp)
  · next c cs =>
    split at h
    · exact absurd h (by simp)
    · split at h
      · next hc =>
        simp only [Start.array.injEq] at h
        rw [hc, h]
      · split at h
        · split at h <;> exact absurd h (by simp)
        · split at h
          · split at h
            · split at h <;> exact absurd h (by simp)
            · exact absurd h (by simp)
          · split at h
            · split at h
              · split at h <;> exact absurd h (by simp)
              · exact absurd h (by simp)
            · split at h
              · exact absurd h (by simp)
              · split at h
                · exact absurd h (by simp)
                · split at h <;> exact absurd h (by simp)

theorem startOf_object (s rest : List Char) (h : startOf s = .object rest) :
    s = '{' :: rest := by
  unfold startOf at h
  split at h
  · exact absurd h (by simp)
  · next c cs =>
    split at h
    · next hc =>
      simp only [Start.object.injEq] at h
      rw [hc, h]
    · split at h
      · exact absurd h (by simp)
      · split at h
        · split at h <;> exact absurd h (by simp)
        · split at h
          · split at h
            · split at h <;> exact absurd h (by simp)
            · exact absurd h (by simp)
          · split at h
            · split at h
              · split at h <;> exact absurd h (by simp)
              · exact absurd h (by simp)
            · split at h
              · exact absurd h (by simp)
              · split at h
                · exact absurd h (by simp)
                · split at h <;> exact absurd h (by simp)

/-- What a parser leaves is not longer than what it was given. -/
theorem parse_length (f : Nat) :
    (∀ d s v rest, parseValue f d s = some (v, rest) → rest.length ≤ s.length) ∧
    (∀ d s vs rest, parseElements f d s = some (vs, rest) → rest.length ≤ s.length) ∧
    (∀ d s ms rest, parseMembers f d s = some (ms, rest) → rest.length ≤ s.length) := by
  induction f with
  | zero =>
    refine ⟨?_, ?_, ?_⟩ <;> intro d s x rest h
    · rw [parseValue] at h; exact absurd h (by simp)
    · rw [parseElements] at h; exact absurd h (by simp)
    · rw [parseMembers] at h; exact absurd h (by simp)
  | succ f ih =>
    obtain ⟨ihv, ihe, ihm⟩ := ih
    refine ⟨?_, ?_, ?_⟩
    · intro d s v rest h
      rw [parseValue] at h
      have hsp := skipSpace_length s
      split at h
      · exact absurd h (by simp)
      · next v0 r0 hst =>
        simp only [Option.some.injEq, Prod.mk.injEq] at h
        rw [← h.2]
        exact Nat.le_trans (startOf_scalar_length _ _ _ hst) hsp
      · next r0 hst =>
        have e := startOf_array _ _ hst
        have h0 : r0.length < s.length := by
          have := congrArg List.length e
          simp only [List.length_cons] at this
          omega
        split at h
        · exact absurd h (by simp)
        · have hsp0 := skipSpace_length r0
          split at h
          · exact absurd h (by simp)
          · next c cs hcs =>
            rw [hcs] at hsp0
            simp only [List.length_cons] at hsp0
            split at h
            · simp only [Option.some.injEq, Prod.mk.injEq] at h
              rw [← h.2]; omega
            · split at h
              · next vs r1 he =>
                simp only [Option.some.injEq, Prod.mk.injEq] at h
                have := ihe _ _ _ _ he
                simp only [List.length_cons] at this
                rw [← h.2]; omega
              · exact absurd h (by simp)
      · next r0 hst =>
        have e := startOf_object _ _ hst
        have h0 : r0.length < s.length := by
          have := congrArg List.length e
          simp only [List.length_cons] at this
          omega
        split at h
        · exact absurd h (by simp)
        · have hsp0 := skipSpace_length r0
          split at h
          · exact absurd h (by simp)
          · next c cs hcs =>
            rw [hcs] at hsp0
            simp only [List.length_cons] at hsp0
            split at h
            · simp only [Option.some.injEq, Prod.mk.injEq] at h
              rw [← h.2]; omega
            · split at h
              · next ms r1 he =>
                simp only [Option.some.injEq, Prod.mk.injEq] at h
                have := ihm _ _ _ _ he
                simp only [List.length_cons] at this
                rw [← h.2]; omega
              · exact absurd h (by simp)
    · intro d s vs rest h
      rw [parseElements] at h
      split at h
      · exact absurd h (by simp)
      · next v r0 hv =>
        have h0 := ihv _ _ _ _ hv
        have hsp0 := skipSpace_length r0
        split at h
        · exact absurd h (by simp)
        · next c cs hcs =>
          rw [hcs] at hsp0
          simp only [List.length_cons] at hsp0
          split at h
          · simp only [Option.some.injEq, Prod.mk.injEq] at h
            rw [← h.2]; omega
          · split at h
            · split at h
              · next vs1 r1 he =>
                simp only [Option.some.injEq, Prod.mk.injEq] at h
                have := ihe _ _ _ _ he
                rw [← h.2]; omega
              · exact absurd h (by simp)
            · exact absurd h (by simp)
    · intro d s ms rest h
      rw [parseMembers] at h
      have hsp := skipSpace_length s
      split at h
      · exact absurd h (by simp)
      · next q s1 hq =>
        rw [hq] at hsp
        simp only [List.length_cons] at hsp
        split at h
        · split at h
          · exact absurd h (by simp)
          · next key s2 hk =>
            have h2 := parseStringFrom_length s1 0 key s2 hk
            have hsp2 := skipSpace_length s2
            split at h
            · exact absurd h (by simp)
            · next colon s3 hc3 =>
              rw [hc3] at hsp2
              simp only [List.length_cons] at hsp2
              split at h
              · split at h
                · exact absurd h (by simp)
                · next v r0 hv =>
                  have h0 := ihv _ _ _ _ hv
                  have hsp0 := skipSpace_length r0
                  split at h
                  · exact absurd h (by simp)
                  · next c cs hcs =>
                    rw [hcs] at hsp0
                    simp only [List.length_cons] at hsp0
                    split at h
                    · simp only [Option.some.injEq, Prod.mk.injEq] at h
                      rw [← h.2]; omega
                    · split at h
                      · split at h
                        · next ms1 r1 he =>
                          simp only [Option.some.injEq, Prod.mk.injEq] at h
                          have := ihm _ _ _ _ he
                          rw [← h.2]; omega
                        · exact absurd h (by simp)
                      · exact absurd h (by simp)
              · exact absurd h (by simp)
        · exact absurd h (by simp)

/-- One more unit of fuel changes nothing once there are more than twice as many units
as characters (and one more for the lists of elements and of members). -/
theorem parse_fuel_succ (f : Nat) :
    (∀ d s, 2 * s.length < f → parseValue (f + 1) d s = parseValue f d s) ∧
    (∀ d s, 2 * s.length + 1 < f → parseElements (f + 1) d s = parseElements f d s) ∧
    (∀ d s, 2 * s.length + 1 < f → parseMembers (f + 1) d s = parseMembers f d s) := by
  induction f with
  | zero =>
    refine ⟨?_, ?_, ?_⟩ <;> intro d s h <;> exact absurd h (Nat.not_lt_zero _)
  | succ f ih =>
    obtain ⟨ihv, ihe, ihm⟩ := ih
    refine ⟨?_, ?_, ?_⟩
    · intro d s h
      conv_lhs => rw [parseValue]
      conv_rhs => rw [parseValue]
      have hsp := skipSpace_length s
      split
      · rfl
      · rfl
      · next r0 hst =>
        have e := congrArg List.length (startOf_array _ _ hst)
        simp only [List.length_cons] at e
        have hsp0 := skipSpace_length r0
        split
        · rfl
        · split
          · rfl
          · next c cs hcs =>
            rw [hcs] at hsp0
            simp only [List.length_cons] at hsp0
            rw [ihe (d + 1) (c :: cs) (by simp only [List.length_cons]; omega)]
      · next r0 hst =>
        have e := congrArg List.length (startOf_object _ _ hst)
        simp only [List.length_cons] at e
        have hsp0 := skipSpace_length r0
        split
        · rfl
        · split
          · rfl
          · next c cs hcs =>
            rw [hcs] at hsp0
            simp only [List.length_cons] at hsp0
            rw [ihm (d + 1) (c :: cs) (by simp only [List.length_cons]; omega)]
    · intro d s h
      conv_lhs => rw [parseElements]
      conv_rhs => rw [parseElements]
      rw [ihv d s (by omega)]
      split
      · rfl
      · next v r0 hv =>
        have h0 := (parse_length f).1 _ _ _ _ hv
        have hsp0 := skipSpace_length r0
        split
        · rfl
        · next c cs hcs =>
          rw [hcs] at hsp0
          simp only [List.length_cons] at hsp0
          rw [ihe d cs (by omega)]
    · intro d s h
      conv_lhs => rw [parseMembers]
      conv_rhs => rw [parseMembers]
      have hsp := skipSpace_length s
      split
      · rfl
      · next q s1 hq =>
        rw [hq] at hsp
        simp only [List.length_cons] at hsp
        split
        · split
          · rfl
          · next key s2 hk =>
            have h2 := parseStringFrom_length s1 0 key s2 hk
            have hsp2 := skipSpace_length s2
            split
            · rfl
            · next colon s3 hc3 =>
              rw [hc3] at hsp2
              simp only [List.length_cons] at hsp2
              split
              · rw [ihv d s3 (by omega)]
                split
                · rfl
                · next v r0 hv =>
                  have h0 := (parse_length f).1 _ _ _ _ hv
                  have hsp0 := skipSpace_length r0
                  split
                  · rfl
                  · next c cs hcs =>
                    rw [hcs] at hsp0
                    simp only [List.length_cons] at hsp0
                    rw [ihm d cs (by omega)]
              · rfl
        · rfl

/-- The fuel of `parseDocument` is never used up: with any more fuel the parser gives
the same value. -/
theorem parseValue_fuel (s : List Char) (d k : Nat) :
    parseValue (2 * s.length + 1 + k) d s = parseValue (2 * s.length + 1) d s := by
  induction k with
  | zero => rfl
  | succ k ih =>
    rw [← ih]
    exact (parse_fuel_succ (2 * s.length + 1 + k)).1 d s (by omega)

/-! ## UTF-8, and the encoder and decoder on Go strings of any bytes -/

theorem char_toNat_valid (c : Char) :
    c.toNat < 0xD800 ∨ (0xDFFF < c.toNat ∧ c.toNat < 0x110000) := by
  have := c.valid
  simpa [Char.toNat, UInt32.isValidChar, Nat.isValidChar] using this

theorem toNat_ofNat8 (n : Nat) (h : n < 256) : (UInt8.ofNat n).toNat = n :=
  UInt8.toNat_ofNat_of_lt h

/-- `DecodeRune` reads a character back from its bytes. -/
theorem DecodeRune_utf8Bytes (c : Char) (rest : List UInt8) :
    DecodeRune (utf8Bytes c ++ rest) = (c.toNat, (utf8Bytes c).length) := by
  have hv := char_toNat_valid c
  unfold utf8Bytes
  split_ifs with h1 h2 h3
  · have e := toNat_ofNat8 c.toNat (by omega)
    simp [DecodeRune, e, h1]
  · have e0 := toNat_ofNat8 (0xC0 + c.toNat / 64) (by omega)
    have e1 := toNat_ofNat8 (0x80 + c.toNat % 64) (by omega)
    simp only [List.cons_append, List.nil_append, DecodeRune, e0, e1, inRange, List.length]
    rw [if_neg (by omega), if_neg (by omega), if_pos (by omega)]
    rw [if_pos (by simp; omega)]
    congr 1
    omega
  · have e0 := toNat_ofNat8 (0xE0 + c.toNat / 4096) (by omega)
    have e1 := toNat_ofNat8 (0x80 + c.toNat / 64 % 64) (by omega)
    have e2 := toNat_ofNat8 (0x80 + c.toNat % 64) (by omega)
    simp only [List.cons_append, List.nil_append, DecodeRune, e0, e1, e2, inRange, List.length]
    rw [if_neg (by omega), if_neg (by omega), if_neg (by omega), if_pos (by omega)]
    rw [if_pos (by simp; split_ifs <;> omega)]
    rw [if_pos (by simp; omega)]
    congr 1
    omega
  · have e0 := toNat_ofNat8 (0xF0 + c.toNat / 262144) (by omega)
    have e1 := toNat_ofNat8 (0x80 + c.toNat / 4096 % 64) (by omega)
    have e2 := toNat_ofNat8 (0x80 + c.toNat / 64 % 64) (by omega)
    have e3 := toNat_ofNat8 (0x80 + c.toNat % 64) (by omega)
    simp only [List.cons_append, List.nil_append, DecodeRune, e0, e1, e2, e3, inRange,
      List.length]
    rw [if_neg (by omega), if_neg (by omega), if_neg (by omega), if_neg (by omega),
      if_pos (by omega)]
    rw [if_pos (by simp; split_ifs <;> omega)]
    rw [if_pos (by simp; omega), if_pos (by simp; omega)]
    congr 1
    omega

/-- The bytes of a character: a first byte, ASCII exactly when the character is, and the
bytes after it. -/
theorem utf8Bytes_cons (c : Char) :
    ∃ b tl, utf8Bytes c = b :: tl ∧
      (c.toNat < 0x80 → b.toNat = c.toNat ∧ tl = []) ∧
      (¬ c.toNat < 0x80 → ¬ b.toNat < 0x80 ∧ tl ≠ []) := by
  have hv := char_toNat_valid c
  unfold utf8Bytes
  split_ifs with h1 h2 h3
  · exact ⟨_, _, rfl, fun _ => ⟨toNat_ofNat8 _ (by omega), rfl⟩, fun h => absurd h1 h⟩
  · refine ⟨_, _, rfl, fun h => absurd h h1, fun _ => ⟨?_, by simp⟩⟩
    rw [toNat_ofNat8 _ (by omega)]; omega
  · refine ⟨_, _, rfl, fun h => absurd h h1, fun _ => ⟨?_, by simp⟩⟩
    rw [toNat_ofNat8 _ (by omega)]; omega
  · refine ⟨_, _, rfl, fun h => absurd h h1, fun _ => ⟨?_, by simp⟩⟩
    rw [toNat_ofNat8 _ (by omega)]; omega

theorem toRunes_skip (pre rest : List UInt8) :
    toRunes pre.length (pre ++ rest) = toRunes 0 rest := by
  induction pre with
  | nil => rfl
  | cons c cs ih => simpa [toRunes] using ih

theorem appendStringFrom_skip (pre rest : List UInt8) :
    appendStringFrom pre.length (pre ++ rest) = appendStringFrom 0 rest := by
  induction pre with
  | nil => rfl
  | cons c cs ih => simpa [appendStringFrom] using ih

/-- Reading the bytes of a text gives the text. -/
theorem toRunes_utf8Chars (cs : List Char) : toRunes 0 (utf8Chars cs) = cs := by
  induction cs with
  | nil => rfl
  | cons c cs ih =>
    obtain ⟨b, tl, he, -, -⟩ := utf8Bytes_cons c
    have hd := DecodeRune_utf8Bytes c (utf8Chars cs)
    rw [he] at hd
    simp only [utf8Chars, he, List.cons_append] at hd ⊢
    rw [toRunes, hd]
    simp only [List.length_cons, Nat.add_sub_cancel, toRunes_skip, ih, Char.ofNat_toNat]

theorem toRunes_utf8 (s : String) : (⟨toRunes 0 (utf8 s)⟩ : String) = s := by
  simp [utf8, toRunes_utf8Chars]

/-- On valid UTF-8 `appendString` is `encodeString`. -/
theorem appendStringFrom_utf8Chars (cs : List Char) :
    appendStringFrom 0 (utf8Chars cs) = escapeChars cs := by
  induction cs with
  | nil => rfl
  | cons c cs ih =>
    obtain ⟨b, tl, he, h1, h2⟩ := utf8Bytes_cons c
    have hd := DecodeRune_utf8Bytes c (utf8Chars cs)
    rw [he] at hd
    simp only [utf8Chars, he, List.cons_append, escapeChars] at hd ⊢
    rw [appendStringFrom]
    by_cases hc : c.toNat < 0x80
    · obtain ⟨hb, ht⟩ := h1 hc
      subst ht
      rw [if_pos (by omega), hb, Char.ofNat_toNat]
      simp [ih]
    · obtain ⟨hb, ht⟩ := h2 hc
      have hl : 0 < tl.length := List.length_pos.mpr ht
      rw [if_neg hb, hd, if_neg (by
        intro h
        have := congrArg Prod.snd h
        simp only [List.length_cons] at this
        omega)]
      simp only [List.length_cons, Nat.add_sub_cancel, appendStringFrom_skip, ih,
        Char.ofNat_toNat]

theorem appendString_utf8 (s : String) : appendString (utf8 s) = encodeString s := by
  simp [appendString, encodeString, utf8, appendStringFrom_utf8Chars]

theorem decodeOne_ufffd (rest : List Char) :
    decodeOne '\\' ('u' :: 'f' :: 'f' :: 'f' :: 'd' :: rest) = some (Char.ofNat runeError, 5) := by
  have hf : hexVal 'f' = some 15 := by decide
  have hd : hexVal 'd' = some 13 := by decide
  have hs : isSurrogate (((15 * 16 + 15) * 16 + 15) * 16 + 13) = false := by decide
  simp [decodeOne, hex4, hf, hd, hs, runeError]

theorem parseStringFrom_step (hd : Char) (tl X : List Char) (c : Char) (hq : hd ≠ '"')
    (h : decodeOne hd (tl ++ X) = some (c, tl.length)) :
    parseStringFrom 0 (hd :: (tl ++ X)) = consChar c (parseStringFrom 0 X) := by
  rw [parseStringFrom, if_neg hq, h]
  simp only [parseStringFrom_skip]

/-- Decoding what the encoder writes for a Go string gives the runes of the string, a
byte that begins no well-formed sequence read as U+FFFD. -/
theorem parseString_appendStringFrom (bs : List UInt8) :
    ∀ (n : Nat) (rest : List Char),
      parseString (appendStringFrom n bs ++ '"' :: rest) = some (toRunes n bs, rest) := by
  unfold parseString
  induction bs with
  | nil =>
    intro n rest
    cases n <;> simp [appendStringFrom, toRunes, parseStringFrom]
  | cons b bs ih =>
    intro n rest
    cases n with
    | succ n => simpa [appendStringFrom, toRunes] using ih n rest
    | zero =>
      rw [appendStringFrom, toRunes]
      split_ifs with h1 h2
      · have hdr : DecodeRune (b :: bs) = (b.toNat, 1) := by simp [DecodeRune, h1]
        obtain ⟨hd, tl, he, hq, hd1⟩ :=
          decodeOne_escapeChar (Char.ofNat b.toNat) (appendStringFrom 0 bs ++ '"' :: rest)
        rw [he, hdr]
        simp only [List.cons_append, List.append_assoc]
        rw [parseStringFrom_step hd tl _ _ hq hd1, ih 0 rest]
        rfl
      · rw [h2]
        have := parseStringFrom_step '\\' ['u', 'f', 'f', 'f', 'd']
          (appendStringFrom 0 bs ++ '"' :: rest) (Char.ofNat runeError) (by decide)
          (decodeOne_ufffd _)
        simp only [List.cons_append, List.nil_append] at this ⊢
        rw [this, ih 0 rest]
        rfl
      · obtain ⟨hd, tl, he, hq, hd1⟩ :=
          decodeOne_escapeChar (Char.ofNat (DecodeRune (b :: bs)).1)
            (appendStringFrom ((DecodeRune (b :: bs)).2 - 1) bs ++ '"' :: rest)
        rw [he]
        simp only [List.cons_append, List.append_assoc]
        rw [parseStringFrom_step hd tl _ _ hq hd1, ih _ rest]
        rfl

/-- The characters of the text `json.Marshal(md)` writes. -/
theorem marshalled_data (md : Bytes.MetaData) :
    md.marshalled.data = '{' :: '"' :: ("since".data ++ '"' :: ':' :: '"' ::
      (appendStringFrom 0 md.Since ++ '"' :: ',' :: '"' :: ("startTime".data ++ '"' :: ':' :: '"' ::
      (md.StartTime.text.data ++ '"' :: ',' :: '"' :: ("endTime".data ++ '"' :: ':' :: '"' ::
      (md.EndTime.text.data ++ '"' :: ',' :: '"' :: ("db".data ++ '"' :: ':' :: '"' ::
      (appendStringFrom 0 md.DatabaseName ++ '"' :: '}' :: [])))))))) := by
  simp [Bytes.MetaData.marshalled, appendString]

/-- Decoding the text `json.Marshal(md)` writes gives the four members back, the two
strings as their runes. -/
theorem Unmarshal_marshalled (md : Bytes.MetaData) :
    Unmarshal md.marshalled = some [("since", .str ⟨toRunes 0 md.Since⟩),
      ("startTime", .str md.StartTime.text), ("endTime", .str md.EndTime.text),
      ("db", .str ⟨toRunes 0 md.DatabaseName⟩)] := by
  have hlen : 6 ≤ md.marshalled.length := by
    rw [String.length, marshalled_data]; simp
  obtain ⟨k, hk⟩ : ∃ k, 2 * md.marshalled.length + 1 = k + 6 + 1 :=
    ⟨2 * md.marshalled.length - 6, by omega⟩
  have h4 := parseMembers_last (k + 1) 1 _ _ "db".data (toRunes 0 md.DatabaseName) []
    (parseString_key "db".data (by decide) _) (parseString_appendStringFrom md.DatabaseName 0 _)
  have h3 := parseMembers_more (k + 2) 1 _ _ "endTime".data md.EndTime.text.data _ _ _
    (parseString_key "endTime".data (by decide) _) (parseString_time md.EndTime _) h4
  have h2 := parseMembers_more (k + 3) 1 _ _ "startTime".data md.StartTime.text.data _ _ _
    (parseString_key "startTime".data (by decide) _) (parseString_time md.StartTime _) h3
  have h1 := parseMembers_more (k + 4) 1 _ _ "since".data (toRunes 0 md.Since) _ _ _
    (parseString_key "since".data (by decide) _) (parseString_appendStringFrom md.Since 0 _) h2
  have hv : parseValue (2 * md.marshalled.length + 1) 0 md.marshalled.data =
      some (.obj [("since", .str ⟨toRunes 0 md.Since⟩), ("startTime", .str md.StartTime.text),
        ("endTime", .str md.EndTime.text), ("db", .str ⟨toRunes 0 md.DatabaseName⟩)], []) := by
    rw [hk, marshalled_data]
    exact parseValue_object (k + 4 + 2) 0 _ _ _ (by decide) h1
  simp [Unmarshal, parseDocument, hv, skipSpace]

/-- Loading the bytes a run saved gives the runes of its cursor, as bytes. -/
theorem LoadPreviousFile_Output_bytes (md0 md : Bytes.MetaData) :
    md0.LoadPreviousFile (.ok md.Output) =
      some { md0 with Since := utf8 ⟨toRunes 0 md.Since⟩ } := by
  simp [Bytes.MetaData.LoadPreviousFile, Bytes.MetaData.Output, toRunes_utf8,
    Unmarshal_marshalled, mapIndex, List.find?]

/-- On records that hold valid UTF-8 the functions on bytes are the functions on text:
`Output` writes the bytes of the same text, and `LoadPreviousFile` on the bytes of a text
does what it does on the text. -/
theorem ofText_agrees (md : MetaData) :
    (ofText md).Output = utf8 md.Output ∧
    ∀ contents : String,
      (ofText md).LoadPreviousFile (.ok (utf8 contents)) =
        (md.LoadPreviousFile (.ok contents)).map ofText := by
  refine ⟨?_, fun contents => ?_⟩
  · simp [ofText, Bytes.MetaData.Output, Bytes.MetaData.marshalled, MetaData.Output,
      appendString_utf8]
  · simp only [Bytes.MetaData.LoadPreviousFile, MetaData.LoadPreviousFile, toRunes_utf8]
    cases Unmarshal contents with
    | none => rfl
    | some data =>
      cases hm : mapIndex data "since" with
      | none => simp [hm]
      | some v => cases v <;> simp [hm, ofText]

/-! ### The pattern `-.*$` -/

theorem matchStar_dot_end (cs : List Char) :
    matchStar dotMatches (matchHere [.endText]) cs =
      if cs.all dotMatches = true then some [] else none := by
  induction cs with
  | nil => simp [matchStar, matchHere]
  | cons c cs ih =>
    rw [matchStar, ih]
    by_cases hc : dotMatches c = true
    · by_cases hall : cs.all dotMatches = true
      · simp [hc, hall]
      · simp [hc, hall, matchHere]
    · simp [hc, matchHere]

theorem matchHere_truncateRe (c : Char) (cs : List Char) :
    matchHere truncateRe (c :: cs) =
      if c = '-' ∧ cs.all dotMatches = true then some [] else none := by
  have e : matchHere truncateRe (c :: cs) =
      (if c = '-' then matchStar dotMatches (matchHere [.endText]) cs else none) := rfl
  rw [e, matchStar_dot_end]
  by_cases hc : c = '-'
  · by_cases hall : cs.all dotMatches = true <;> simp [hc, hall]
  · simp [hc]

theorem replaceAllEmpty_drop (re : List ReItem) (cs : List Char) :
    replaceAllEmpty re cs.length cs = [] := by
  induction cs with
  | nil => simp [replaceAllEmpty]
  | cons c cs ih => simpa [replaceAllEmpty] using ih

theorem replaceAllEmpty_cons (c : Char) (cs : List Char) :
    replaceAllEmpty truncateRe 0 (c :: cs) =
      if c = '-' ∧ cs.all dotMatches = true then []
      else c :: replaceAllEmpty truncateRe 0 cs := by
  rw [replaceAllEmpty, matchHere_truncateRe]
  by_cases h : c = '-' ∧ cs.all dotMatches = true
  · simp only [if_pos h]
    simpa using replaceAllEmpty_drop truncateRe cs
  · simp only [if_neg h]

theorem all_dotMatches_iff (cs : List Char) : cs.all dotMatches = true ↔ '\n' ∉ cs := by
  induction cs with
  | nil => simp
  | cons c cs ih =>
    simp only [List.all_cons, Bool.and_eq_true, ih, List.mem_cons, not_or]
    constructor
    · rintro ⟨h1, h2⟩
      refine ⟨?_, h2⟩
      intro h; subst h; revert h1; decide
    · rintro ⟨h1, h2⟩
      refine ⟨?_, h2⟩
      simp only [dotMatches, bne_iff_ne, ne_eq]
      exact fun h => h1 h.symm

/-- Without a newline in the text, the replacement cuts at the first `-`. -/
theorem replaceAllEmpty_noNewline (s : List Char) (h : '\n' ∉ s) :
    replaceAllEmpty truncateRe 0 s = s.takeWhile (fun c => c != '-') := by
  induction s with
  | nil => simp [replaceAllEmpty]
  | cons c cs ih =>
    have hcs : '\n' ∉ cs := fun hm => h (List.mem_cons_of_mem _ hm)
    rw [replaceAllEmpty_cons, ih hcs]
    by_cases hc : c = '-'
    · simp [hc, (all_dotMatches_iff cs).mpr hcs]
    · simp [hc]

/-- Up to a newline nothing is cut. -/
theorem replaceAllEmpty_newline (pre post : List Char) :
    replaceAllEmpty truncateRe 0 (pre ++ '\n' :: post) =
      pre ++ '\n' :: replaceAllEmpty truncateRe 0 post := by
  induction pre with
  | nil =>
    rw [List.nil_append, replaceAllEmpty_cons, if_neg (fun h => absurd h.1 (by decide))]
    rfl
  | cons c cs ih =>
    have hn : ¬ ((cs ++ '\n' :: post).all dotMatches = true) := by
      rw [all_dotMatches_iff]; simp
    rw [List.cons_append, replaceAllEmpty_cons, if_neg (fun h => hn h.2), ih]
    rfl

/-! ### `strings.ReplaceAll` of one character -/

theorem replaceAllChars_single (a b : Char) (s : List Char) :
    replaceAllChars [a] [b] 0 s = s.map (fun c => if c = a then b else c) := by
  induction s with
  | nil => simp [replaceAllChars]
  | cons c cs ih =>
    rw [replaceAllChars]
    by_cases h : c = a
    · subst h
      simp [List.isPrefixOf, ih]
    · have h' : ¬ a = c := fun e => h e.symm
      simp [List.isPrefixOf, h, h', ih]

theorem sanitise_data (name : String) :
    (App.sanitiseDatabaseName name).data = name.data.map (fun c => if c = ' ' then '_' else c) := by
  simp only [App.sanitiseDatabaseName, ReplaceAll]
  exact replaceAllChars_single ' ' '_' name.data

/-! ### The three file names of a run are different -/

theorem last_append_literal (a : String) (b : List Char) (c : Char) :
    (a.data ++ (b ++ [c])).getLast? = some c := by
  rw [← List.append_assoc, List.getLast?_append]
  simp

theorem metaFilename_ne_jsonl (a x : String) : metaFilenameOf a ≠ x ++ ".jsonl" := by
  intro h
  have h1 : (metaFilenameOf a).data.getLast? = some 'n' := by
    simp only [metaFilenameOf, String.data_append]
    exact last_append_literal a "-meta.jso".data 'n'
  have h2 : (x ++ ".jsonl").data.getLast? = some 'l' := by
    simp only [String.data_append]
    exact last_append_literal x ".json".data 'l'
  rw [h, h2] at h1
  exact absurd h1 (by decide)

theorem tmp_ne_filename (x : String) : "_tmp_" ++ x ≠ x := by
  intro h
  have := congrArg String.length h
  simp only [String.length_append] at this
  have h5 : "_tmp_".length = 5 := by decide
  omega

/-- The names `New` gives to the checkpoint, the artifact and the temporary file are
three different paths. -/
theorem New_names (dbname : String) (deletions : Bool) (serviceErr : Option String)
    (now : Time) (timestamp : String) (cs : App.CloudantSnap)
    (h : App.New dbname deletions serviceErr now timestamp = .ok cs) :
    cs.metaFilename ≠ cs.filename ∧ cs.metaFilename ≠ cs.tmpFilename ∧
      cs.tmpFilename ≠ cs.filename ∧
      cs.metaFilename = App.sanitiseDatabaseName dbname ++ "-meta.json" ∧
      cs.appConfig = { DatabaseName := dbname, Deletions := deletions } ∧
      cs.meta = NewMetaData dbname now := by
  unfold App.New NewAppConfig at h
  by_cases hd : dbname = ""
  · simp [hd] at h
  · cases serviceErr with
    | some e => simp [hd] at h
    | none =>
      simp only [hd, if_false, Except.ok.injEq] at h
      subst h
      refine ⟨?_, ?_, ?_, rfl, rfl, rfl⟩
      · exact metaFilename_ne_jsonl _ _
      · simp only [App.generateFilename]
        have := metaFilename_ne_jsonl (App.sanitiseDatabaseName dbname)
          ("_tmp_" ++ (App.sanitiseDatabaseName dbname ++ "-snapshot-" ++ timestamp))
        simpa [String.append_assoc] using this
      · exact tmp_ne_filename _

/-! ### The file map, and failures that keep the checkpoint -/

theorem FS.set_ne (fs : FS) (p q : String) (v : Option String) (h : q ≠ p) :
    (fs.set p v) q = fs q := by
  simp [FS.set, h]

theorem FS.set_eq (fs : FS) (p : String) (v : Option String) : (fs.set p v) p = v := by
  simp [FS.set]

theorem FS.rename_ne (fs : FS) (a b q : String) (ha : q ≠ a) (hb : q ≠ b) :
    (fs.rename a b) q = fs q := by
  unfold FS.rename
  split
  · rfl
  · rw [FS.set_ne _ _ _ _ ha, FS.set_ne _ _ _ _ hb]

theorem FS.rename_new (fs : FS) (a b : String) (h : a ≠ b) :
    (fs.rename a b) b = fs a := by
  unfold FS.rename
  rw [if_neg h, FS.set_ne _ _ _ _ (Ne.symm h), FS.set_eq]

theorem FS.rename_old (fs : FS) (a b : String) (h : a ≠ b) :
    (fs.rename a b) a = none := by
  unfold FS.rename
  rw [if_neg h, FS.set_eq]

/-- C1: in every run, whatever the feed and the files before it, when the open of the
temporary output, the opening of the change feed (the making of the follower or its
start) or the rename of the temporary file fails, `Run` returns that error and the
checkpoint file holds what it held before; the checkpoint file is written only right
after the rename has succeeded, and it differs from before only in a run whose rename
succeeded. These failures do happen: once the checkpoint is loaded, a failing open is
met, then a failing follower, then a failing start, then (when no turn panics) a
failing rename. -/
theorem Run_failure_keeps_checkpoint (marshal : Document → Except String String)
    (dbname : String) (deletions : Bool) (now : Time) (timestamp : String)
    (cs : App.CloudantSnap) (env : Env) (fs : FS)
    (hcs : App.New dbname deletions none now timestamp = .ok cs) :
    (∀ e, Op.openFile cs.tmpFilename (some e) ∈ (App.Run marshal cs env fs).ops →
      (App.Run marshal cs env fs).outcome = .returned (some e) ∧
      (App.Run marshal cs env fs).fs cs.metaFilename = fs cs.metaFilename) ∧
    (∀ since e, Op.newFollower since (some e) ∈ (App.Run marshal cs env fs).ops →
      (App.Run marshal cs env fs).outcome = .returned (some e) ∧
      (App.Run marshal cs env fs).fs cs.metaFilename = fs cs.metaFilename) ∧
    (∀ e, Op.startOneOff (some e) ∈ (App.Run marshal cs env fs).ops →
      (App.Run marshal cs env fs).outcome = .returned (some e) ∧
      (App.Run marshal cs env fs).fs cs.metaFilename = fs cs.metaFilename) ∧
    (∀ e, Op.rename cs.tmpFilename cs.filename (some e) ∈ (App.Run marshal cs env fs).ops →
      (App.Run marshal cs env fs).outcome = .returned (some e) ∧
      (App.Run marshal cs env fs).fs cs.metaFilename = fs cs.metaFilename) ∧
    (∀ path e, Op.writeFile path e ∈ (App.Run marshal cs env fs).ops →
      path = cs.metaFilename ∧ ∃ before, (App.Run marshal cs env fs).ops =
        before ++ [Op.rename cs.tmpFilename cs.filename none, Op.writeFile path e]) ∧
    ((App.Run marshal cs env fs).fs cs.metaFilename ≠ fs cs.metaFilename →
      Op.rename cs.tmpFilename cs.filename none ∈ (App.Run marshal cs env fs).ops) ∧
    (∀ meta, cs.meta.LoadPreviousFile (ReadFile env fs cs.metaFilename) = some meta →
      (∀ e, env.openErr = some e →
        Op.openFile cs.tmpFilename (some e) ∈ (App.Run marshal cs env fs).ops) ∧
      (∀ e, env.openErr = none → env.followerErr = some e →
        Op.newFollower (requestSince meta) (some e) ∈ (App.Run marshal cs env fs).ops) ∧
      (∀ e, env.openErr = none → env.followerErr = none → env.changes = .error e →
        Op.startOneOff (some e) ∈ (App.Run marshal cs env fs).ops) ∧
      (∀ e turns, env.openErr = none → env.followerErr = none → env.changes = .ok turns →
        (changesLoop (App.body marshal cs.appConfig.Deletions)
          { f := { data := [], pos := 0 }, since := meta.Since } turns).panics = false →
        env.renameErr = some e →
        Op.rename cs.tmpFilename cs.filename (some e) ∈ (App.Run marshal cs env fs).ops)) := by
  obtain ⟨hn1, hn2, hn3, -⟩ := New_names _ _ _ _ _ _ hcs
  simp only [App.Run]
  split
  · simp_all
  · split
    · simp_all
    · split
      · simp_all [FS.set_ne _ _ _ _ hn2]
      · split
        · simp_all [FS.set_ne _ _ _ _ hn2]
        · split
          · simp_all [FS.set_ne _ _ _ _ hn2, Step.panics]
          · split
            · simp_all [FS.set_ne _ _ _ _ hn2, Step.panics]
            · split
              · simp_all
                exact ⟨[_, _, _, _], rfl⟩
              · simp_all
                exact ⟨[_, _, _, _], rfl⟩

/-! ### The loop of `internal/app` -/

theorem filtered_iff (item : ChangesResultItem) (deletions : Bool) :
    (item.Deleted = some true ∧ deletions = false) ↔ (!deletions && isDeletion item) = true := by
  cases deletions <;> simp [isDeletion]

theorem OpenFile.write_end (f : OpenFile) (s : List Char) (h : f.pos = f.data.length) :
    (f.write s).data = f.data ++ s ∧ (f.write s).pos = (f.write s).data.length := by
  simp [OpenFile.write, h]

/-- The turn that panics is the one that meets a nil `Doc`. -/
theorem App.body_nilDoc (m : Document → Except String String) (d : Bool) (st : LoopState)
    (t : Turn) : t.nilDoc d = true → App.body m d st t = .panic st := by
  rcases t with ⟨item | item, w⟩
  · simp [Turn.nilDoc]
  · intro h
    simp only [Turn.nilDoc, Bool.and_eq_true, Bool.not_eq_true', Option.isNone_iff_eq_none] at h
    have hf : ¬ (item.Deleted = some true ∧ d = false) := by
      rw [filtered_iff]; simp [h.1]
    simp [App.body, hf, h.2]

/-- Every other turn goes on, with the cursor at the token the turn moves it to. -/
theorem App.body_next (m : Document → Except String String) (d : Bool) (st : LoopState)
    (t : Turn) (h : t.nilDoc d = false) :
    ∃ st1, App.body m d st t = .next st1 ∧
      st1.since = (t.advancesTo m d).getD st.since := by
  rcases t with ⟨item | item, w⟩
  · exact ⟨st, by simp [App.body], by simp [Turn.advancesTo]⟩
  · by_cases hf : (!d && isDeletion item) = true
    · have hf' := (filtered_iff item d).mpr hf
      exact ⟨st, by simp [App.body, hf'], by simp [Turn.advancesTo, hf]⟩
    · have hf' : ¬ (item.Deleted = some true ∧ d = false) := fun x => hf ((filtered_iff item d).mp x)
      simp only [Turn.nilDoc, hf, Bool.not_false, Bool.true_and, Bool.not_eq_true] at h
      rcases item with ⟨del, doc, id, seq⟩
      cases doc with
      | none => simp at h
      | some doc =>
        simp only [App.body, hf', if_false, Turn.advancesTo, hf, lineOf, Option.bind, lineOfDoc]
        cases hm : m { doc with Rev := none } with
        | error e => exact ⟨st, by simp, by simp⟩
        | ok out =>
          cases w with
          | some en => exact ⟨_, rfl, by simp⟩
          | none =>
            cases seq with
            | some s => exact ⟨_, rfl, by simp⟩
            | none => exact ⟨_, rfl, by simp⟩

theorem getLast?_cons_getD (a b : String) (l : List String) :
    ((a :: l).getLast?).getD b = (l.getLast?).getD a := by
  cases l with
  | nil => rfl
  | cons x xs =>
    rw [List.getLast?_cons_cons]
    cases h : (x :: xs).getLast? with
    | none => simp at h
    | some y => rfl

theorem finalCursor_cons (m : Document → Except String String) (d : Bool) (since : String)
    (t : Turn) (ts : List Turn) :
    finalCursor m d since (t :: ts) = finalCursor m d ((t.advancesTo m d).getD since) ts := by
  unfold finalCursor
  cases h : t.advancesTo m d with
  | none => simp [List.filterMap_cons, h]
  | some s => simp [List.filterMap_cons, h, getLast?_cons_getD]

/-- A feed without a nil `Doc` is drained, and the cursor ends at the last token a turn
moved it to. -/
theorem App.loop_next (m : Document → Except String String) (d : Bool) (turns : List Turn)
    (h : ∀ t ∈ turns, t.nilDoc d = false) (st : LoopState) :
    ∃ st1, changesLoop (App.body m d) st turns = .next st1 ∧
      st1.since = finalCursor m d st.since turns := by
  induction turns generalizing st with
  | nil => exact ⟨st, rfl, rfl⟩
  | cons t ts ih =>
    obtain ⟨st1, h1, hs⟩ := App.body_next m d st t (h t (List.mem_cons_self _ _))
    obtain ⟨st2, h2, hs2⟩ := ih (fun x hx => h x (List.mem_cons_of_mem _ hx)) st1
    refine ⟨st2, ?_, ?_⟩
    · simp only [changesLoop, h1, h2]
    · rw [hs2, hs, finalCursor_cons]

/-- What a turn that succeeds adds to the file. -/
theorem App.body_succeeds (m : Document → Except String String) (d : Bool) (st : LoopState)
    (t : Turn) (h : t.succeeds m d = true) (hp : st.f.pos = st.f.data.length) :
    ∃ st1, App.body m d st t = .next st1 ∧ st1.f.pos = st1.f.data.length ∧
      st1.f.data = st.f.data ++ (concatLines (artifactLines m d [t])).data := by
  rcases t with ⟨item | item, w⟩
  · exact ⟨st, by simp [App.body], hp, by simp [artifactLines, keptEvents, Turn.retrieved, concatLines]⟩
  · by_cases hf : (!d && isDeletion item) = true
    · have hf' := (filtered_iff item d).mpr hf
      have hk : (d || !isDeletion item) = false := by
        cases d <;> simp_all
      exact ⟨st, by simp [App.body, hf'], hp,
        by simp [artifactLines, keptEvents, Turn.retrieved, concatLines, hk]⟩
    · have hf' : ¬ (item.Deleted = some true ∧ d = false) := fun x => hf ((filtered_iff item d).mp x)
      have hk : (d || !isDeletion item) = true := by
        cases d <;> simp_all
      simp only [Turn.succeeds, hf, Bool.false_or, Bool.and_eq_true, Option.isNone_iff_eq_none] at h
      obtain ⟨hl, hw⟩ := h
      subst hw
      rcases item with ⟨del, doc, id, seq⟩
      cases doc with
      | none => simp [lineOf] at hl
      | some doc =>
        cases hm : m { doc with Rev := none } with
        | error e => simp [lineOf, lineOfDoc, hm] at hl
        | ok out =>
          have hline : artifactLines m d [⟨.ok ⟨del, some doc, id, seq⟩, none⟩] = [out ++ "\n"] := by
            simp [artifactLines, keptEvents, Turn.retrieved, hk, lineOf, lineOfDoc, hm]
          obtain ⟨w1, w2⟩ := OpenFile.write_end st.f (out ++ "\n").data hp
          cases seq with
          | some s =>
            refine ⟨⟨st.f.write (out ++ "\n").data, s⟩,
              by simp only [App.body, hf', if_false, hm], w2, ?_⟩
            show (st.f.write (out ++ "\n").data).data = _
            rw [w1, hline]
            simp [concatLines]
          | none =>
            refine ⟨⟨st.f.write (out ++ "\n").data, st.since⟩,
              by simp only [App.body, hf', if_false, hm], w2, ?_⟩
            show (st.f.write (out ++ "\n").data).data = _
            rw [w1, hline]
            simp [concatLines]

theorem artifactLines_cons (m : Document → Except String String) (d : Bool) (t : Turn)
    (ts : List Turn) :
    artifactLines m d (t :: ts) = artifactLines m d [t] ++ artifactLines m d ts := by
  simp only [artifactLines, keptEvents]
  rw [← List.filterMap_append, ← List.filter_append, ← List.filterMap_append]
  rfl

theorem concatLines_append (a b : List String) :
    concatLines (a ++ b) = concatLines a ++ concatLines b := by
  induction a with
  | nil => simp [concatLines]
  | cons x xs ih => simp [concatLines, ih, String.append_assoc]

/-- A feed in which serialization and writes succeed leaves in the file the lines of the
kept events, in feed order. -/
theorem App.loop_succeeds (m : Document → Except String String) (d : Bool) (turns : List Turn)
    (h : ∀ t ∈ turns, t.succeeds m d = true) (st : LoopState)
    (hp : st.f.pos = st.f.data.length) :
    ∃ st1, changesLoop (App.body m d) st turns = .next st1 ∧
      st1.f.data = st.f.data ++ (concatLines (artifactLines m d turns)).data := by
  induction turns generalizing st with
  | nil => exact ⟨st, rfl, by simp [artifactLines, keptEvents, concatLines]⟩
  | cons t ts ih =>
    obtain ⟨st1, h1, hp1, hd1⟩ := App.body_succeeds m d st t (h t (List.mem_cons_self _ _)) hp
    obtain ⟨st2, h2, hd2⟩ := ih (fun x hx => h x (List.mem_cons_of_mem _ hx)) st1 hp1
    refine ⟨st2, ?_, ?_⟩
    · simp only [changesLoop, h1, h2]
    · rw [hd2, hd1, artifactLines_cons m d t ts, concatLines_append, String.data_append,
        List.append_assoc]

/-- A run that gets to the loop is the loop and what follows it. -/
theorem App.Run_loop (m : Document → Except String String) (cs : App.CloudantSnap) (env : Env)
    (fs : FS) (meta : MetaData) (turns : List Turn)
    (hl : cs.meta.LoadPreviousFile (ReadFile env fs cs.metaFilename) = some meta)
    (ho : env.openErr = none) (hf : env.followerErr = none) (hc : env.changes = .ok turns) :
    App.Run m cs env fs =
      App.afterLoop cs env (fs.set cs.tmpFilename (some "")) meta (App.opsToLoop cs meta)
        (App.printed cs meta)
        (changesLoop (App.body m cs.appConfig.Deletions)
          { f := { data := [], pos := 0 }, since := meta.Since } turns) := by
  simp only [App.Run, hl, ho, hf, hc, App.afterLoop, App.opsToLoop, App.printed]
  split
  · rfl
  · split
    · rfl
    · split <;> simp_all

theorem WriteFile_ne (env : Env) (fs : FS) (path data q : String) (h : q ≠ path) :
    (WriteFile env fs path data).1 q = fs q := by
  unfold WriteFile
  split
  · exact FS.set_ne _ _ _ _ h
  · rfl
  · exact FS.set_ne _ _ _ _ h

theorem WriteFile_ok (env : Env) (fs : FS) (path data : String) (h : env.writeFileErr = none) :
    WriteFile env fs path data = (fs.set path (some data), none) := by
  simp [WriteFile, h]

/-- The files a drained loop leaves: the artifact under its final name when the rename
succeeds, under the temporary name when it fails. -/
theorem App.afterLoop_next_fs (cs : App.CloudantSnap) (env : Env) (fs1 : FS) (meta : MetaData)
    (ops3 : List Op) (out : List String) (st : LoopState)
    (hn1 : cs.metaFilename ≠ cs.filename) (hn2 : cs.metaFilename ≠ cs.tmpFilename)
    (hn3 : cs.tmpFilename ≠ cs.filename) :
    (App.afterLoop cs env fs1 meta ops3 out (.next st)).outcome ≠ .panicked ∧
    (env.renameErr = none →
      (App.afterLoop cs env fs1 meta ops3 out (.next st)).fs cs.filename = some ⟨st.f.data⟩ ∧
      (App.afterLoop cs env fs1 meta ops3 out (.next st)).fs cs.tmpFilename = none) ∧
    (env.renameErr ≠ none →
      (App.afterLoop cs env fs1 meta ops3 out (.next st)).fs cs.tmpFilename =
        some ⟨st.f.data⟩) := by
  have hW : ∀ fs data q, q ≠ cs.metaFilename →
      (WriteFile env fs cs.metaFilename data).1 q = fs q :=
    fun fs data q h => WriteFile_ne env fs _ data q h
  simp only [App.afterLoop, MetaData.WriteToFile]
  cases hr : env.renameErr with
  | some e => simp [FS.set_eq]
  | none =>
    simp only [ne_eq, not_true_eq_false, false_implies, and_true, true_implies]
    have e1 := hW ((fs1.set cs.tmpFilename (some ⟨st.f.data⟩)).rename cs.tmpFilename cs.filename)
      (meta.RecordEnd st.since env.endTime).Output cs.filename (Ne.symm hn1)
    have e2 := hW ((fs1.set cs.tmpFilename (some ⟨st.f.data⟩)).rename cs.tmpFilename cs.filename)
      (meta.RecordEnd st.since env.endTime).Output cs.tmpFilename (Ne.symm hn2)
    rw [FS.rename_new _ _ _ hn3, FS.set_eq] at e1
    rw [FS.rename_old _ _ _ hn3] at e2
    split
    · next fs4 e heq =>
      rw [heq] at e1 e2
      exact ⟨by simp, e1, e2⟩
    · next fs4 heq =>
      rw [heq] at e1 e2
      exact ⟨by simp, e1, e2⟩

theorem map_eq_filterMap_some {α β : Type} (f : α → Option β) (l : List α)
    (h : ∀ x ∈ l, (f x).isSome = true) : l.map f = (l.filterMap f).map some := by
  induction l with
  | nil => rfl
  | cons a as ih =>
    have ha := h a (List.mem_cons_self _ _)
    obtain ⟨b, hb⟩ := Option.isSome_iff_exists.mp ha
    have ih' := ih (fun x hx => h x (List.mem_cons_of_mem _ hx))
    simp [List.filterMap_cons, hb, ih']

theorem kept_has_line (m : Document → Except String String) (d : Bool) (turns : List Turn)
    (hs : ∀ t ∈ turns, t.succeeds m d = true) :
    ∀ item ∈ keptEvents d turns, (lineOf m item).isSome = true := by
  intro item hi
  simp only [keptEvents, List.mem_filter, List.mem_filterMap] at hi
  obtain ⟨⟨t, ht, hr⟩, hk⟩ := hi
  have h := hs t ht
  rcases t with ⟨it | it, w⟩
  · simp [Turn.retrieved] at hr
  · simp only [Turn.retrieved, Option.some.injEq] at hr
    subst hr
    simp only [Turn.succeeds, Bool.or_eq_true, Bool.and_eq_true] at h
    rcases h with h | h
    · cases d <;> simp_all
    · exact h.1

/-- C2 (amended): when the run gets to the loop and, in every turn, a kept event carries a
document, the document serializes and the line is written, the run does not panic and
the artifact (under its final name when the rename succeeds, under the temporary name
when it fails) is the text of the lines of the kept events in feed order, one line per
kept event, each the JSON of the document with the revision cleared followed by a
newline; the kept events are the retrieved ones that are not deletions when deletions
are disabled, and all retrieved ones when deletions are enabled. -/
theorem Run_artifact_lines (m : Document → Except String String)
    (dbname : String) (deletions : Bool) (now : Time) (timestamp : String)
    (cs : App.CloudantSnap) (env : Env) (fs : FS) (meta : MetaData) (turns : List Turn)
    (hcs : App.New dbname deletions none now timestamp = .ok cs)
    (hl : cs.meta.LoadPreviousFile (ReadFile env fs cs.metaFilename) = some meta)
    (ho : env.openErr = none) (hf : env.followerErr = none) (hc : env.changes = .ok turns)
    (hs : ∀ t ∈ turns, t.succeeds m deletions = true) :
    (App.Run m cs env fs).outcome ≠ .panicked ∧
    (env.renameErr = none →
      (App.Run m cs env fs).fs cs.filename =
        some (concatLines (artifactLines m deletions turns))) ∧
    (env.renameErr ≠ none →
      (App.Run m cs env fs).fs cs.tmpFilename =
        some (concatLines (artifactLines m deletions turns))) ∧
    (keptEvents deletions turns).map (lineOf m) =
      (artifactLines m deletions turns).map some ∧
    (deletions = false → keptEvents deletions turns =
      (turns.filterMap Turn.retrieved).filter (fun item => !isDeletion item)) ∧
    (deletions = true → keptEvents deletions turns = turns.filterMap Turn.retrieved) := by
  obtain ⟨hn1, hn2, hn3, -, hcfg, -⟩ := New_names _ _ _ _ _ _ hcs
  have hd : cs.appConfig.Deletions = deletions := by rw [hcfg]
  rw [App.Run_loop m cs env fs meta turns hl ho hf hc, hd]
  obtain ⟨st1, h1, hdata⟩ := App.loop_succeeds m deletions turns hs
    { f := { data := [], pos := 0 }, since := meta.Since } rfl
  rw [h1]
  have hdata' : (⟨st1.f.data⟩ : String) = concatLines (artifactLines m deletions turns) := by
    rw [hdata]; rfl
  obtain ⟨a1, a2, a3⟩ := App.afterLoop_next_fs cs env (fs.set cs.tmpFilename (some ""))
    meta (App.opsToLoop cs meta) (App.printed cs meta) st1 hn1 hn2 hn3
  rw [hdata'] at a2 a3
  refine ⟨a1, fun h => (a2 h).1, a3, ?_, ?_, ?_⟩
  · exact map_eq_filterMap_some _ _ (kept_has_line m deletions turns hs)
  · intro h; subst h; simp [keptEvents]
  · intro h; subst h; simp [keptEvents]

theorem advancesTo_deletion (m : Document → Except String String) (t : Turn)
    (h : t.deletion = true) : t.advancesTo m false = none := by
  rcases t with ⟨it | it, w⟩
  · rfl
  · simp only [Turn.deletion] at h
    simp [Turn.advancesTo, h]

theorem finalCursor_append_one (m : Document → Except String String) (d : Bool) (since : String)
    (turns : List Turn) (t : Turn) (h : t.advancesTo m d = none) :
    finalCursor m d since (turns ++ [t]) = finalCursor m d since turns := by
  simp [finalCursor, List.filterMap_append, h]

/-- A run in which nothing fails but single items, and no turn meets a nil `Doc`, returns
nil and records the last token a turn moved the cursor to. -/
theorem App.Run_drained (m : Document → Except String String) (cs : App.CloudantSnap)
    (env : Env) (fs : FS) (meta : MetaData) (turns : List Turn)
    (hl : cs.meta.LoadPreviousFile (ReadFile env fs cs.metaFilename) = some meta)
    (ho : env.openErr = none) (hf : env.followerErr = none) (hc : env.changes = .ok turns)
    (hr : env.renameErr = none) (hw : env.writeFileErr = none)
    (hn : ∀ t ∈ turns, t.nilDoc cs.appConfig.Deletions = false) :
    (App.Run m cs env fs).outcome = .returned none ∧
    (App.Run m cs env fs).meta =
      meta.RecordEnd (finalCursor m cs.appConfig.Deletions meta.Since turns) env.endTime ∧
    (App.Run m cs env fs).fs cs.metaFilename = some (App.Run m cs env fs).meta.Output := by
  rw [App.Run_loop m cs env fs meta turns hl ho hf hc]
  obtain ⟨st1, h1, hsince⟩ := App.loop_next m cs.appConfig.Deletions turns hn
    { f := { data := [], pos := 0 }, since := meta.Since }
  rw [h1]
  have e : App.afterLoop cs env (fs.set cs.tmpFilename (some "")) meta (App.opsToLoop cs meta)
      (App.printed cs meta) (.next st1) =
      { outcome := .returned none,
        fs := (((fs.set cs.tmpFilename (some "")).set cs.tmpFilename (some ⟨st1.f.data⟩)).rename
          cs.tmpFilename cs.filename).set cs.metaFilename
            (some (meta.RecordEnd st1.since env.endTime).Output),
        ops := App.opsToLoop cs meta ++ [.rename cs.tmpFilename cs.filename none] ++
          [.writeFile cs.metaFilename none],
        stdout := App.printed cs meta ++ [cs.metaFilename],
        meta := meta.RecordEnd st1.since env.endTime } := by
    simp only [App.afterLoop, MetaData.WriteToFile, hr, WriteFile_ok _ _ _ _ hw]
  rw [e]
  refine ⟨rfl, ?_, FS.set_eq _ _ _⟩
  show meta.RecordEnd st1.since env.endTime = _
  rw [hsince]

/-- C3 (amended): with deletions disabled, a run that is drained without a panic and
whose rename and checkpoint write succeed returns nil and records in the checkpoint the
last token a turn moved the cursor to (the loaded cursor when no turn did); a deletion
event moves it nowhere, so a feed that ends in a deletion records the cursor of the feed
without it. -/
theorem Run_checkpoint_cursor (m : Document → Except String String)
    (dbname : String) (now : Time) (timestamp : String)
    (cs : App.CloudantSnap) (env : Env) (fs : FS) (meta : MetaData) (turns : List Turn)
    (hcs : App.New dbname false none now timestamp = .ok cs)
    (hl : cs.meta.LoadPreviousFile (ReadFile env fs cs.metaFilename) = some meta)
    (ho : env.openErr = none) (hf : env.followerErr = none) (hc : env.changes = .ok turns)
    (hr : env.renameErr = none) (hw : env.writeFileErr = none)
    (hn : ∀ t ∈ turns, t.nilDoc false = false) :
    (App.Run m cs env fs).outcome = .returned none ∧
    (App.Run m cs env fs).meta.Since = finalCursor m false meta.Since turns ∧
    (App.Run m cs env fs).fs cs.metaFilename = some (App.Run m cs env fs).meta.Output ∧
    (∀ md : MetaData, md.LoadPreviousFile (.ok (App.Run m cs env fs).meta.Output) =
      some { md with Since := finalCursor m false meta.Since turns }) ∧
    (∀ t ∈ turns, t.deletion = true → t.advancesTo m false = none) ∧
    (∀ front last, turns = front ++ [last] → last.deletion = true →
      finalCursor m false meta.Since turns = finalCursor m false meta.Since front) := by
  obtain ⟨-, -, -, -, hcfg, -⟩ := New_names _ _ _ _ _ _ hcs
  have hd : cs.appConfig.Deletions = false := by rw [hcfg]
  obtain ⟨d1, d2, d3⟩ := App.Run_drained m cs env fs meta turns hl ho hf hc hr hw
    (by rw [hd]; exact hn)
  rw [hd] at d2
  refine ⟨d1, by rw [d2]; rfl, d3, ?_, ?_, ?_⟩
  · intro md
    rw [LoadPreviousFile_Output, d2]
    rfl
  · exact fun t _ h => advancesTo_deletion m t h
  · intro front last e hdel
    rw [e]
    exact finalCursor_append_one m false _ front last (advancesTo_deletion m last hdel)

theorem length_pos_iff_ne_empty (s : String) : 0 < s.length ↔ s ≠ "" := by
  rcases s with ⟨l⟩
  cases l with
  | nil => simp [String.length]
  | cons c cs =>
    simp only [String.length, List.length_cons, Nat.zero_lt_succ, true_iff]
    intro h
    exact absurd (congrArg String.data h) (by simp)

theorem requestSince_eq (meta : MetaData) :
    requestSince meta = if meta.Since = "" then "0" else meta.Since := by
  unfold requestSince
  by_cases h : meta.Since = ""
  · rw [if_pos h, if_neg]; rw [length_pos_iff_ne_empty]; exact fun x => x h
  · rw [if_neg h, if_pos ((length_pos_iff_ne_empty _).mpr h)]

/-- The request of a run whose open succeeds carries `requestSince` of the loaded record. -/
theorem App.Run_requested (m : Document → Except String String) (cs : App.CloudantSnap)
    (env : Env) (fs : FS) (meta : MetaData)
    (hl : cs.meta.LoadPreviousFile (ReadFile env fs cs.metaFilename) = some meta)
    (ho : env.openErr = none) :
    (App.Run m cs env fs).requested = some (requestSince meta) := by
  simp only [App.Run, hl, ho]
  split
  · simp [RunResult.requested]
  · split
    · simp [RunResult.requested]
    · split
      · simp [RunResult.requested]
      · split
        · simp [RunResult.requested]
        · split <;> simp [RunResult.requested]

/-- C6: when the open of the output succeeds, the request for the change feed carries the
loaded cursor itself when it is not empty and `"0"` when it is empty; with no checkpoint
file the request carries `"0"`. -/
theorem Run_request_since (m : Document → Except String String)
    (dbname : String) (deletions : Bool) (now : Time) (timestamp : String)
    (cs : App.CloudantSnap) (env : Env) (fs : FS)
    (hcs : App.New dbname deletions none now timestamp = .ok cs)
    (ho : env.openErr = none) :
    (∀ meta, cs.meta.LoadPreviousFile (ReadFile env fs cs.metaFilename) = some meta →
      (App.Run m cs env fs).requested = some (if meta.Since = "" then "0" else meta.Since)) ∧
    (∀ meta, cs.meta.LoadPreviousFile (ReadFile env fs cs.metaFilename) = some meta →
      meta.Since ≠ "" → (App.Run m cs env fs).requested = some meta.Since) ∧
    (fs cs.metaFilename = none → (App.Run m cs env fs).requested = some "0") := by
  obtain ⟨-, -, -, -, -, hmeta⟩ := New_names _ _ _ _ _ _ hcs
  refine ⟨?_, ?_, ?_⟩
  · intro meta hl
    rw [App.Run_requested m cs env fs meta hl ho, requestSince_eq]
  · intro meta hl hne
    rw [App.Run_requested m cs env fs meta hl ho, requestSince_eq, if_neg hne]
  · intro hnone
    have hl : cs.meta.LoadPreviousFile (ReadFile env fs cs.metaFilename) = some cs.meta := by
      simp [ReadFile, hnone, MetaData.LoadPreviousFile]
    rw [App.Run_requested m cs env fs cs.meta hl ho, requestSince_eq, hmeta]
    rfl

/-! ### A per-item error is skipped -/

theorem changesLoop_append (body : LoopState → Turn → Step) (st : LoopState)
    (a b : List Turn) :
    changesLoop body st (a ++ b) =
      match changesLoop body st a with
      | .next s => changesLoop body s b
      | .panic s => .panic s := by
  induction a generalizing st with
  | nil => rfl
  | cons t ts ih =>
    simp only [List.cons_append, changesLoop]
    cases body st t with
    | next s => exact ih s
    | panic s => rfl

theorem OpenFile.write_nil (f : OpenFile) : f.write [] = f := by
  simp [OpenFile.write]

/-- The turn of a per-item error goes on to the next turn with the cursor as it was,
and with the file as it was unless a failing write still wrote something. -/
theorem App.body_perItemError (m : Document → Except String String) (d : Bool)
    (st : LoopState) (t : Turn) (h : t.perItemError m d = true) :
    ∃ st1, App.body m d st t = .next st1 ∧ st1.since = st.since ∧
      (t.writesNothing m = true → st1 = st) := by
  rcases t with ⟨it | it, w⟩
  · exact ⟨st, by simp [App.body], rfl, fun _ => rfl⟩
  · simp only [Turn.perItemError, Bool.and_eq_true, Bool.not_eq_true'] at h
    obtain ⟨hf, h2⟩ := h
    have hf' : ¬ (it.Deleted = some true ∧ d = false) := by
      rw [filtered_iff]; simp [hf]
    rcases it with ⟨del, doc, id, seq⟩
    cases doc with
    | none => simp at h2
    | some doc =>
      simp only [Bool.or_eq_true, Option.isNone_iff_eq_none, Option.isSome_iff_exists] at h2
      simp only [App.body, hf', if_false, Turn.writesNothing, lineOfDoc] at h2 ⊢
      cases hm : m { doc with Rev := none } with
      | error e => exact ⟨st, rfl, rfl, fun _ => rfl⟩
      | ok out =>
        simp only [hm] at h2
        rcases h2 with h2 | ⟨⟨e, n⟩, hw⟩
        · simp at h2
        · subst hw
          refine ⟨_, rfl, rfl, ?_⟩
          intro hz
          simp only [Option.isNone_some, Bool.false_or, beq_iff_eq] at hz
          subst hz
          simp [OpenFile.write_nil]

/-- Whether a turn panics and where it leaves the cursor does not depend on the file. -/
theorem App.body_cursor (m : Document → Except String String) (d : Bool)
    (st st' : LoopState) (t : Turn) (h : st.since = st'.since) :
    (App.body m d st t).panics = (App.body m d st' t).panics ∧
      (App.body m d st t).state.since = (App.body m d st' t).state.since := by
  rcases t with ⟨it | it, w⟩
  · simp [App.body, Step.panics, Step.state, h]
  · by_cases hf : (it.Deleted = some true ∧ d = false)
    · simp [App.body, hf, Step.panics, Step.state, h]
    · rcases it with ⟨del, doc, id, seq⟩
      cases doc with
      | none => simp [App.body, hf, Step.panics, Step.state, h]
      | some doc =>
        simp only [App.body, hf, if_false]
        cases m { doc with Rev := none } with
        | error e => simp [Step.panics, Step.state, h]
        | ok out =>
          cases w with
          | some en => simp [Step.panics, Step.state, h]
          | none => cases seq <;> simp [Step.panics, Step.state, h]

theorem App.loop_cursor (m : Document → Except String String) (d : Bool) (turns : List Turn)
    (st st' : LoopState) (h : st.since = st'.since) :
    (changesLoop (App.body m d) st turns).panics =
        (changesLoop (App.body m d) st' turns).panics ∧
      (changesLoop (App.body m d) st turns).state.since =
        (changesLoop (App.body m d) st' turns).state.since := by
  induction turns generalizing st st' with
  | nil => exact ⟨rfl, h⟩
  | cons t ts ih =>
    obtain ⟨hp, hs⟩ := App.body_cursor m d st st' t h
    simp only [changesLoop]
    cases h1 : App.body m d st t with
    | next s1 =>
      cases h2 : App.body m d st' t with
      | next s2 =>
        rw [h1, h2] at hs
        exact ih s1 s2 hs
      | panic s2 => rw [h1, h2] at hp; simp [Step.panics] at hp
    | panic s1 =>
      cases h2 : App.body m d st' t with
      | next s2 => rw [h1, h2] at hp; simp [Step.panics] at hp
      | panic s2 =>
        rw [h1, h2] at hs
        exact ⟨rfl, hs⟩

/-- The loop over a feed with a per-item error and over the feed without it. -/
theorem App.loop_skip (m : Document → Except String String) (d : Bool)
    (front rest : List Turn) (bad : Turn) (h : bad.perItemError m d = true) (st : LoopState) :
    (changesLoop (App.body m d) st (front ++ bad :: rest)).panics =
        (changesLoop (App.body m d) st (front ++ rest)).panics ∧
      (changesLoop (App.body m d) st (front ++ bad :: rest)).state.since =
        (changesLoop (App.body m d) st (front ++ rest)).state.since ∧
      (bad.writesNothing m = true →
        changesLoop (App.body m d) st (front ++ bad :: rest) =
          changesLoop (App.body m d) st (front ++ rest)) := by
  rw [changesLoop_append, changesLoop_append]
  cases changesLoop (App.body m d) st front with
  | panic s => exact ⟨rfl, rfl, fun _ => rfl⟩
  | next s =>
    obtain ⟨s1, hb, hs, hw⟩ := App.body_perItemError m d s bad h
    simp only [changesLoop, hb]
    obtain ⟨c1, c2⟩ := App.loop_cursor m d rest s1 s hs
    exact ⟨c1, c2, fun hz => by rw [hw hz]⟩

/-- What follows the loop depends on the loop only through whether it panicked and
through the cursor, the contents of the two output files apart. -/
theorem App.afterLoop_cursor (cs : App.CloudantSnap) (env : Env) (fs1 : FS) (meta : MetaData)
    (ops3 : List Op) (out : List String) (r1 r2 : Step)
    (hn1 : cs.metaFilename ≠ cs.filename) (hn2 : cs.metaFilename ≠ cs.tmpFilename)
    (hp : r1.panics = r2.panics) (hs : r1.state.since = r2.state.since) :
    (App.afterLoop cs env fs1 meta ops3 out r1).outcome =
        (App.afterLoop cs env fs1 meta ops3 out r2).outcome ∧
      (App.afterLoop cs env fs1 meta ops3 out r1).ops =
        (App.afterLoop cs env fs1 meta ops3 out r2).ops ∧
      (App.afterLoop cs env fs1 meta ops3 out r1).stdout =
        (App.afterLoop cs env fs1 meta ops3 out r2).stdout ∧
      (App.afterLoop cs env fs1 meta ops3 out r1).meta =
        (App.afterLoop cs env fs1 meta ops3 out r2).meta ∧
      (App.afterLoop cs env fs1 meta ops3 out r1).fs cs.metaFilename =
        (App.afterLoop cs env fs1 meta ops3 out r2).fs cs.metaFilename := by
  cases r1 with
  | panic s1 =>
    cases r2 with
    | next s2 => simp [Step.panics] at hp
    | panic s2 =>
      simp only [App.afterLoop]
      refine ⟨?_, ?_, ?_, ?_, ?_⟩ <;> try (first | rfl | trivial)
      rw [FS.set_ne _ _ _ _ hn2, FS.set_ne _ _ _ _ hn2]
  | next s1 =>
    cases r2 with
    | panic s2 => simp [Step.panics] at hp
    | next s2 =>
      simp only [Step.state] at hs
      simp only [App.afterLoop, hs]
      cases env.renameErr with
      | some e =>
        refine ⟨?_, ?_, ?_, ?_, ?_⟩ <;> try (first | rfl | trivial)
        show (fs1.set cs.tmpFilename _) cs.metaFilename = (fs1.set cs.tmpFilename _) cs.metaFilename
        rw [FS.set_ne _ _ _ _ hn2, FS.set_ne _ _ _ _ hn2]
      | none =>
        simp only [MetaData.WriteToFile, WriteFile]
        cases env.writeFileErr with
        | none =>
          refine ⟨?_, ?_, ?_, ?_, ?_⟩ <;> try (first | rfl | trivial)
          show (FS.set _ cs.metaFilename _) cs.metaFilename = (FS.set _ cs.metaFilename _) cs.metaFilename
          rw [FS.set_eq, FS.set_eq]
        | some en =>
          rcases en with ⟨e, n | n⟩
          · refine ⟨?_, ?_, ?_, ?_, ?_⟩ <;> try (first | rfl | trivial)
            show (FS.rename _ _ _) cs.metaFilename = (FS.rename _ _ _) cs.metaFilename
            rw [FS.rename_ne _ _ _ _ hn2 hn1, FS.rename_ne _ _ _ _ hn2 hn1,
              FS.set_ne _ _ _ _ hn2, FS.set_ne _ _ _ _ hn2]
          · refine ⟨?_, ?_, ?_, ?_, ?_⟩ <;> try (first | rfl | trivial)
            show (FS.set _ cs.metaFilename _) cs.metaFilename = (FS.set _ cs.metaFilename _) cs.metaFilename
            rw [FS.set_eq, FS.set_eq]

theorem ReadFile_env (env env' : Env) (fs : FS) (path : String)
    (h : env'.readErr = env.readErr) : ReadFile env' fs path = ReadFile env fs path := by
  simp only [ReadFile, h]

theorem App.afterLoop_env (cs : App.CloudantSnap) (env env' : Env) (fs1 : FS) (meta : MetaData)
    (ops3 : List Op) (out : List String) (r : Step)
    (h4 : env'.renameErr = env.renameErr) (h5 : env'.writeFileErr = env.writeFileErr)
    (h6 : env'.endTime = env.endTime) :
    App.afterLoop cs env' fs1 meta ops3 out r = App.afterLoop cs env fs1 meta ops3 out r := by
  simp only [App.afterLoop, MetaData.WriteToFile, WriteFile, h4, h5, h6]

/-- The run over a feed with a per-item error and the run over the feed without it, in
environments that differ in the feed only. -/
theorem App.Run_skip (m : Document → Except String String) (cs : App.CloudantSnap)
    (env env' : Env) (fs : FS) (front rest : List Turn) (bad : Turn)
    (hn1 : cs.metaFilename ≠ cs.filename) (hn2 : cs.metaFilename ≠ cs.tmpFilename)
    (h1 : env'.readErr = env.readErr) (h2 : env'.openErr = env.openErr)
    (h3 : env'.followerErr = env.followerErr) (h4 : env'.renameErr = env.renameErr)
    (h5 : env'.writeFileErr = env.writeFileErr) (h6 : env'.endTime = env.endTime)
    (hc : env.changes = .ok (front ++ bad :: rest)) (hc' : env'.changes = .ok (front ++ rest))
    (hb : bad.perItemError m cs.appConfig.Deletions = true) :
    (App.Run m cs env fs).outcome = (App.Run m cs env' fs).outcome ∧
    (App.Run m cs env fs).ops = (App.Run m cs env' fs).ops ∧
    (App.Run m cs env fs).stdout = (App.Run m cs env' fs).stdout ∧
    (App.Run m cs env fs).meta = (App.Run m cs env' fs).meta ∧
    (App.Run m cs env fs).fs cs.metaFilename = (App.Run m cs env' fs).fs cs.metaFilename ∧
    (bad.writesNothing m = true → (App.Run m cs env fs).fs = (App.Run m cs env' fs).fs) := by
  have hr := ReadFile_env env env' fs cs.metaFilename h1
  cases hl : cs.meta.LoadPreviousFile (ReadFile env fs cs.metaFilename) with
  | none =>
    have hl' := hl
    rw [← hr] at hl'
    simp only [App.Run, hl, hl']
    exact ⟨trivial, trivial, trivial, trivial, trivial, fun _ => trivial⟩
  | some meta =>
    have hl' := hl
    rw [← hr] at hl'
    cases ho : env.openErr with
    | some e =>
      have ho' := h2.trans ho
      simp only [App.Run, hl, hl', ho, ho']
      exact ⟨trivial, trivial, trivial, trivial, trivial, fun _ => trivial⟩
    | none =>
      have ho' := h2.trans ho
      cases hf : env.followerErr with
      | some e =>
        have hf' := h3.trans hf
        simp only [App.Run, hl, hl', ho, ho', hf, hf']
        exact ⟨trivial, trivial, trivial, trivial, trivial, fun _ => trivial⟩
      | none =>
        have hf' := h3.trans hf
        rw [App.Run_loop m cs env fs meta _ hl ho hf hc,
          App.Run_loop m cs env' fs meta _ hl' ho' hf' hc',
          App.afterLoop_env cs env env' _ _ _ _ _ h4 h5 h6]
        obtain ⟨k1, k2, k3⟩ := App.loop_skip m cs.appConfig.Deletions front rest bad hb
          { f := { data := [], pos := 0 }, since := meta.Since }
        obtain ⟨a1, a2, a3, a4, a5⟩ := App.afterLoop_cursor cs env
          (fs.set cs.tmpFilename (some "")) meta (App.opsToLoop cs meta) (App.printed cs meta)
          _ _ hn1 hn2 k1 k2
        exact ⟨a1, a2, a3, a4, a5, fun hz => by rw [k3 hz]⟩

/-- C4: a per-item error (the feed yields a failed item, or the document of a kept event
does not serialize, or its line is not written) skips only that item: its turn goes on
to the next one with the cursor as it was, and the run over the whole feed ends as the
run over the feed without the item does (same return or panic, same requests, same
printed lines, same final record and checkpoint file), and leaves the very same files
unless the failing write still wrote part of its line; so when nothing else fails and no
other turn meets a nil `Doc`, the run returns nil with the cursor the other turns give. -/
theorem Run_skips_item_error (m : Document → Except String String)
    (dbname : String) (deletions : Bool) (now : Time) (timestamp : String)
    (cs : App.CloudantSnap) (env : Env) (fs : FS) (front rest : List Turn) (bad : Turn)
    (hcs : App.New dbname deletions none now timestamp = .ok cs)
    (hc : env.changes = .ok (front ++ bad :: rest))
    (hb : bad.perItemError m deletions = true) :
    (∀ st, ∃ st1, App.body m deletions st bad = .next st1 ∧ st1.since = st.since) ∧
    (App.Run m cs env fs).outcome =
      (App.Run m cs { env with changes := .ok (front ++ rest) } fs).outcome ∧
    (App.Run m cs env fs).ops =
      (App.Run m cs { env with changes := .ok (front ++ rest) } fs).ops ∧
    (App.Run m cs env fs).stdout =
      (App.Run m cs { env with changes := .ok (front ++ rest) } fs).stdout ∧
    (App.Run m cs env fs).meta =
      (App.Run m cs { env with changes := .ok (front ++ rest) } fs).meta ∧
    (App.Run m cs env fs).fs cs.metaFilename =
      (App.Run m cs { env with changes := .ok (front ++ rest) } fs).fs cs.metaFilename ∧
    (bad.writesNothing m = true →
      (App.Run m cs env fs).fs =
        (App.Run m cs { env with changes := .ok (front ++ rest) } fs).fs) ∧
    (∀ meta, cs.meta.LoadPreviousFile (ReadFile env fs cs.metaFilename) = some meta →
      env.openErr = none → env.followerErr = none → env.renameErr = none →
      env.writeFileErr = none → (∀ t ∈ front ++ rest, t.nilDoc deletions = false) →
      (App.Run m cs env fs).outcome = .returned none ∧
      (App.Run m cs env fs).meta.Since =
        finalCursor m deletions meta.Since (front ++ rest)) := by
  obtain ⟨hn1, hn2, -, -, hcfg, -⟩ := New_names _ _ _ _ _ _ hcs
  have hd : cs.appConfig.Deletions = deletions := by rw [hcfg]
  have hskip := App.Run_skip m cs env { env with changes := .ok (front ++ rest) } fs front
    rest bad hn1 hn2 rfl rfl rfl rfl rfl rfl hc rfl (by rw [hd]; exact hb)
  refine ⟨fun st => ?_, hskip.1, hskip.2.1, hskip.2.2.1, hskip.2.2.2.1, hskip.2.2.2.2.1,
    hskip.2.2.2.2.2, ?_⟩
  · obtain ⟨st1, h1, h2, -⟩ := App.body_perItemError m deletions st bad hb
    exact ⟨st1, h1, h2⟩
  · intro meta hl ho hf hr hw hn
    obtain ⟨d1, d2, -⟩ := App.Run_drained m cs { env with changes := .ok (front ++ rest) } fs
      meta (front ++ rest) hl ho hf rfl hr hw (by rw [hd]; exact hn)
    rw [hd] at d2
    refine ⟨hskip.1.trans d1, ?_⟩
    rw [hskip.2.2.2.1, d2]
    rfl

/-! ### The two copies of `Run` -/

/-- On a turn in which nothing fails the two bodies do the same, unless the event is a
deletion that `internal/app` filters out. -/
theorem Snap.body_eq (m : Document → Except String String) (d : Bool) (st : LoopState)
    (t : Turn) (hc : t.clean m = true) (hd : d = true ∨ t.deletion = false) :
    Snap.body m st t = App.body m d st t := by
  rcases t with ⟨it | it, w⟩
  · simp [Turn.clean] at hc
  · simp only [Turn.clean, Bool.and_eq_true, Option.isNone_iff_eq_none] at hc
    obtain ⟨⟨hl, hs⟩, hw⟩ := hc
    subst hw
    have hf : ¬ (it.Deleted = some true ∧ d = false) := by
      rintro ⟨h1, h2⟩
      rcases hd with hd | hd
      · rw [hd] at h2; exact absurd h2 (by decide)
      · simp [Turn.deletion, isDeletion, h1] at hd
    rcases it with ⟨del, doc, id, seq⟩
    cases doc with
    | none => simp [lineOf] at hl
    | some doc =>
      cases seq with
      | none => simp at hs
      | some s =>
        simp only [Snap.body, App.body, hf, if_false]

theorem Snap.loop_eq (m : Document → Except String String) (d : Bool) (turns : List Turn)
    (hc : ∀ t ∈ turns, t.clean m = true)
    (hd : d = true ∨ ∀ t ∈ turns, t.deletion = false) (st : LoopState) :
    changesLoop (Snap.body m) st turns = changesLoop (App.body m d) st turns := by
  induction turns generalizing st with
  | nil => rfl
  | cons t ts ih =>
    have hd1 : d = true ∨ t.deletion = false :=
      hd.imp id (fun h => h t (List.mem_cons_self _ _))
    have hd2 : d = true ∨ ∀ x ∈ ts, x.deletion = false :=
      hd.imp id (fun h x hx => h x (List.mem_cons_of_mem _ hx))
    simp only [changesLoop, Snap.body_eq m d st t (hc t (List.mem_cons_self _ _)) hd1]
    cases App.body m d st t with
    | next s => exact ih (fun x hx => hc x (List.mem_cons_of_mem _ hx)) hd2 s
    | panic s => rfl

/-- Where the two copies agree: for a feed in which nothing fails (every event is
retrieved, carries a document and a sequence token, serializes and is written), when the
temporary file does not exist beforehand and the checkpoint write succeeds, and when
deletions are enabled or the feed has no deletion event, `Run` of `snap/snap.go` and
`Run` of `internal/app/snap.go` are the same run: same return, same files (artifact and
checkpoint), same requests, same printed lines, same final record. -/
theorem Run_copies_agree (m : Document → Except String String)
    (dbname : String) (deletions : Bool) (now : Time) (timestamp : String)
    (cs : App.CloudantSnap) (env : Env) (fs : FS) (turns : List Turn)
    (hcs : App.New dbname deletions none now timestamp = .ok cs)
    (hc : env.changes = .ok turns)
    (hclean : ∀ t ∈ turns, t.clean m = true)
    (hdel : deletions = true ∨ ∀ t ∈ turns, t.deletion = false)
    (htmp : fs cs.tmpFilename = none)
    (hw : env.writeFileErr = none) :
    Snap.Run m { appConfig := cs.appConfig } now timestamp env fs = App.Run m cs env fs := by
  unfold App.New NewAppConfig at hcs
  by_cases hdb : dbname = ""
  · simp [hdb] at hcs
  · simp only [hdb, if_false, Except.ok.injEq] at hcs
    subst hcs
    simp only at htmp
    have hheld : (fs ("_tmp_" ++ App.generateFilename (App.sanitiseDatabaseName dbname)
        timestamp)).getD "" = "" := by rw [htmp]; rfl
    simp only [Snap.Run, App.Run, Snap.sanitiseDatabaseName, App.sanitiseDatabaseName,
      Snap.generateFilename, App.generateFilename] at hheld ⊢
    cases hl : (NewMetaData dbname now).LoadPreviousFile
        (ReadFile env fs (metaFilenameOf (ReplaceAll dbname " " "_"))) with
    | none => rfl
    | some meta =>
      simp only []
      cases env.openErr with
      | some e => rfl
      | none =>
        simp only []
        cases env.followerErr with
        | some e => simp only [hheld]
        | none =>
          simp only [hc, hheld]
          rw [Snap.loop_eq m deletions turns hclean hdel]
          cases changesLoop (App.body m deletions)
              { f := { data := [], pos := 0 }, since := meta.Since } turns with
          | panic st => rfl
          | next st =>
            simp only []
            cases env.renameErr with
            | some e => rfl
            | none =>
              simp only [MetaData.WriteToFile, WriteFile_ok _ _ _ _ hw]

set_option maxRecDepth 100000

/-! ## The checkpoint store -/

/-- C5 (amended): for every cursor that is valid UTF-8 (the bytes of a text), every
database name and times, the bytes that `RecordEnd(cursor)` followed by `Output`
produces, when `LoadPreviousFile` reads them into a fresh `MetaData`, set `Since` to
exactly that cursor and nothing else; for a cursor of any bytes they set `Since` to the
bytes of the runes of the cursor, with U+FFFD in the place of every byte that begins no
well-formed UTF-8 sequence. -/
theorem save_load_round_trip (saved : Bytes.MetaData) (endTime : Time)
    (dbname : GoString) (now : Time) :
    (∀ cursor : String,
      (Bytes.NewMetaData dbname now).LoadPreviousFile
          (.ok (saved.RecordEnd (utf8 cursor) endTime).Output) =
        some { Bytes.NewMetaData dbname now with Since := utf8 cursor }) ∧
    (∀ cursor : GoString,
      (Bytes.NewMetaData dbname now).LoadPreviousFile
          (.ok (saved.RecordEnd cursor endTime).Output) =
        some { Bytes.NewMetaData dbname now with Since := utf8 ⟨toRunes 0 cursor⟩ }) := by
  refine ⟨fun cursor => ?_, fun cursor => ?_⟩
  · rw [LoadPreviousFile_Output_bytes]
    simp only [Bytes.MetaData.RecordEnd, toRunes_utf8]
  · rw [LoadPreviousFile_Output_bytes]
    rfl

/-- The round trip at a sample cursor with characters that the encoder escapes and a
character of two bytes. -/
theorem save_load_round_trip_witness :
    (Bytes.NewMetaData (utf8 "my db") Sample.t1).LoadPreviousFile
      (.ok ((Bytes.NewMetaData (utf8 "my db") Sample.t0).RecordEnd
        (utf8 "23-g1\"AAA\\<é>\n") Sample.t1).Output) =
      some { Bytes.NewMetaData (utf8 "my db") Sample.t1 with
        Since := utf8 "23-g1\"AAA\\<é>\n" } :=
  (save_load_round_trip (Bytes.NewMetaData (utf8 "my db") Sample.t0) Sample.t1
    (utf8 "my db") Sample.t1).1 "23-g1\"AAA\\<é>\n"

/-- C5 as stated fails: for the cursor of the three bytes `a`, `FF`, `b`, which is not
valid UTF-8, `RecordEnd` followed by `Output` writes `since` as `"a\ufffdb"`, and
`LoadPreviousFile` on these bytes sets `Since` to the five bytes `a`, `EF`, `BF`, `BD`,
`b`, not to the cursor. -/
theorem save_load_invalid_utf8_counterexample :
    Sample.rawCursor = [0x61, 0xFF, 0x62] ∧
    ((Bytes.NewMetaData (utf8 "my db") Sample.t0).RecordEnd Sample.rawCursor
      Sample.t1).marshalled =
      "\x7b\"since\":\"a\\ufffdb\",\"startTime\":\"2024-05-01T10:00:00Z\"," ++
        "\"endTime\":\"2024-05-01T10:00:07.5Z\",\"db\":\"my db\"\x7d" ∧
    ((Bytes.NewMetaData (utf8 "my db") Sample.t1).LoadPreviousFile
      (.ok ((Bytes.NewMetaData (utf8 "my db") Sample.t0).RecordEnd Sample.rawCursor
        Sample.t1).Output)).map (fun md => md.Since) = some [0x61, 0xEF, 0xBF, 0xBD, 0x62] ∧
    ((Bytes.NewMetaData (utf8 "my db") Sample.t1).LoadPreviousFile
      (.ok ((Bytes.NewMetaData (utf8 "my db") Sample.t0).RecordEnd Sample.rawCursor
        Sample.t1).Output)).map (fun md => md.Since) ≠ some Sample.rawCursor := by
  decide

/-- The round trip through the file, on text: the file that `WriteToFile` makes of what
`RecordEnd(cursor)` followed by `Output` produces, when the next run reads it, sets
`Since` to that cursor. -/
theorem WriteToFile_LoadPreviousFile (saved : MetaData) (cursor : String) (endTime : Time)
    (dbname : String) (now : Time) (env : Env) (fs : FS) (path : String)
    (hw : env.writeFileErr = none) (hr : env.readErr = none) :
    (NewMetaData dbname now).LoadPreviousFile
      (ReadFile env ((saved.RecordEnd cursor endTime).WriteToFile env fs path).1 path) =
    some { NewMetaData dbname now with Since := cursor } := by
  have h := LoadPreviousFile_Output (NewMetaData dbname now) (saved.RecordEnd cursor endTime)
  rw [MetaData.WriteToFile, WriteFile_ok _ _ _ _ hw]
  simp only [ReadFile, FS.set_eq, hr]
  exact h

/-- What `LoadPreviousFile` does when the file cannot be read or is not JSON of an
object: it returns, with the record as it was. -/
theorem LoadPreviousFile_soft_fail (md : MetaData) :
    (∀ e, md.LoadPreviousFile (.error e) = some md) ∧
    (∀ contents, Unmarshal contents = none → md.LoadPreviousFile (.ok contents) = some md) := by
  refine ⟨fun e => rfl, fun contents h => ?_⟩
  simp [MetaData.LoadPreviousFile, h]

/-- C7 (the code at the failing inputs): on a checkpoint file that holds the empty
object, an object whose `since` is a number, or `null`, `LoadPreviousFile` panics in the
type assertion, and so does the run that loads it; on an absent file and on text that is
not JSON it returns with the cursor empty. -/
theorem LoadPreviousFile_panics_without_since :
    ((NewMetaData "my db" Sample.t0).LoadPreviousFile (.ok "\x7b\x7d")).isNone = true ∧
    ((NewMetaData "my db" Sample.t0).LoadPreviousFile (.ok "\x7b\"since\":1\x7d")).isNone = true ∧
    ((NewMetaData "my db" Sample.t0).LoadPreviousFile (.ok "null")).isNone = true ∧
    (App.Run Sample.marshal Sample.cs (Sample.env [Sample.turnA])
      (Sample.noFiles.set "my_db-meta.json" (some "\x7b\x7d"))).outcome = .panicked ∧
    ((NewMetaData "my db" Sample.t0).LoadPreviousFile
      (ReadFile (Sample.env []) Sample.noFiles "my_db-meta.json")).map (fun md => md.Since) =
        some "" ∧
    ((NewMetaData "my db" Sample.t0).LoadPreviousFile (.ok "not json")).map
      (fun md => md.Since) = some "" ∧
    ((NewMetaData "my db" Sample.t0).LoadPreviousFile (.ok "[1, 2]")).map
      (fun md => md.Since) = some "" := by
  decide

/-! ## The display form of the cursor -/

theorem replaceAllEmpty_noDash (s : List Char) (h : '-' ∉ s) :
    replaceAllEmpty truncateRe 0 s = s := by
  induction s with
  | nil => simp [replaceAllEmpty]
  | cons c cs ih =>
    have hc : c ≠ '-' := fun e => h (by simp [e])
    have hcs : '-' ∉ cs := fun hm => h (List.mem_cons_of_mem _ hm)
    rw [replaceAllEmpty_cons, if_neg (fun x => hc x.1), ih hcs]

theorem data_ne_zero_of_newline (s : String) (front last : List Char)
    (h : s.data = front ++ '\n' :: last) : s ≠ "0" := by
  intro e
  rw [e] at h
  have hm : '\n' ∈ ("0" : String).data := by rw [h]; simp
  exact absurd hm (by decide)

/-- C8 (amended): `GetTruncatedSince` returns `"0"` for `"0"`; a cursor without `-` is
returned unchanged; a cursor without newline is cut at its first `-`; and in general
only the part after the last newline is cut at its first `-`, the text up to that newline
being kept whole. -/
theorem GetTruncatedSince_cuts_last_line (md : MetaData) :
    (md.Since = "0" → md.GetTruncatedSince = "0") ∧
    ('-' ∉ md.Since.data → md.GetTruncatedSince = md.Since) ∧
    (md.Since ≠ "0" → '\n' ∉ md.Since.data →
      md.GetTruncatedSince = ⟨md.Since.data.takeWhile (fun c => c != '-')⟩) ∧
    (∀ front last, md.Since.data = front ++ '\n' :: last → '\n' ∉ last →
      md.GetTruncatedSince = ⟨front ++ '\n' :: last.takeWhile (fun c => c != '-')⟩) := by
  refine ⟨?_, ?_, ?_, ?_⟩
  · intro h
    simp [MetaData.GetTruncatedSince, h]
  · intro h
    unfold MetaData.GetTruncatedSince
    split
    · rfl
    · rw [replaceAllEmpty_noDash _ h]
  · intro h0 hn
    unfold MetaData.GetTruncatedSince
    rw [if_neg h0, replaceAllEmpty_noNewline _ hn]
  · intro front last hs hn
    unfold MetaData.GetTruncatedSince
    rw [if_neg (data_ne_zero_of_newline _ front last hs), hs, replaceAllEmpty_newline,
      replaceAllEmpty_noNewline _ hn]

/-- The display form of a sample cursor, and of one with a newline. -/
theorem GetTruncatedSince_cuts_last_line_witness :
    (MetaData.mk "23-g1AAAA-x" Sample.t0 Sample.t0 "my db").GetTruncatedSince = "23" ∧
    (MetaData.mk "1-a\n2-b" Sample.t0 Sample.t0 "my db").GetTruncatedSince = "1-a\n2" :=
  ⟨(GetTruncatedSince_cuts_last_line (MetaData.mk "23-g1AAAA-x" Sample.t0 Sample.t0 "my db")).2.2.1
      (by decide) (by decide),
    (GetTruncatedSince_cuts_last_line (MetaData.mk "1-a\n2-b" Sample.t0 Sample.t0 "my db")).2.2.2
      "1-a".data "2-b".data rfl (by decide)⟩

/-- C8 as stated fails: the cursor `1-a`, newline, `2-b` is not `"0"` and contains a
`-`, and its display form is not its prefix before the first `-` (which is `1`): the
pattern cuts the last line only. -/
theorem GetTruncatedSince_newline_counterexample :
    ("1-a\n2-b" : String) ≠ "0" ∧ '-' ∈ ("1-a\n2-b" : String).data ∧
    (⟨("1-a\n2-b" : String).data.takeWhile (fun c => c != '-')⟩ : String) = "1" ∧
    (MetaData.mk "1-a\n2-b" Sample.t0 Sample.t0 "my db").GetTruncatedSince = "1-a\n2" ∧
    (MetaData.mk "1-a\n2-b" Sample.t0 Sample.t0 "my db").GetTruncatedSince ≠
      ⟨("1-a\n2-b" : String).data.takeWhile (fun c => c != '-')⟩ := by
  decide

/-! ## The file names -/

/-- C9 (the code at the failing input): `sanitiseDatabaseName` replaces the space
character only: a tab in the name stays, in the name and in the checkpoint file name
made of it; for every name the result is the name with each space replaced by `_`. -/
theorem sanitiseDatabaseName_keeps_tab :
    App.sanitiseDatabaseName "a\tb c" = "a\tb_c" ∧
    '\t' ∈ (App.sanitiseDatabaseName "a\tb c").data ∧
    (App.New "a\tb c" false none Sample.t0 "2024-05-01T10:00:00Z").toOption.map
      (fun cs => cs.metaFilename) = some "a\tb_c-meta.json" ∧
    (∀ name : String, (App.sanitiseDatabaseName name).data =
      name.data.map (fun c => if c = ' ' then '_' else c)) ∧
    (∀ name : String, ' ' ∉ (App.sanitiseDatabaseName name).data) := by
  refine ⟨by decide, by decide, by decide, sanitise_data, ?_⟩
  intro name
  rw [sanitise_data]
  simp only [List.mem_map, not_exists, not_and]
  intro c _
  by_cases h : c = ' '
  · simp [h]
  · simp [h]

/-! ## The runs at sample inputs -/

/-- C1 at sample inputs: a failing rename, a failing open and a failing feed each make
the run return that error, with the checkpoint of the earlier run still in place. -/
theorem Run_failure_keeps_checkpoint_witness :
    ((App.Run Sample.marshal Sample.cs (Sample.envRenameFails [Sample.turnA, Sample.turnC])
        Sample.checkpointOnly).outcome = .returned (some "rename: permission denied") ∧
      (App.Run Sample.marshal Sample.cs (Sample.envRenameFails [Sample.turnA, Sample.turnC])
        Sample.checkpointOnly).fs Sample.cs.metaFilename =
        Sample.checkpointOnly Sample.cs.metaFilename) ∧
    ((App.Run Sample.marshal Sample.cs (Sample.envOpenFails [Sample.turnA])
        Sample.checkpointOnly).outcome = .returned (some "open: permission denied") ∧
      (App.Run Sample.marshal Sample.cs (Sample.envOpenFails [Sample.turnA])
        Sample.checkpointOnly).fs Sample.cs.metaFilename =
        Sample.checkpointOnly Sample.cs.metaFilename) ∧
    ((App.Run Sample.marshal Sample.cs Sample.envFeedFails
        Sample.checkpointOnly).outcome = .returned (some "changes: not found") ∧
      (App.Run Sample.marshal Sample.cs Sample.envFeedFails
        Sample.checkpointOnly).fs Sample.cs.metaFilename =
        Sample.checkpointOnly Sample.cs.metaFilename) ∧
    Sample.checkpointOnly Sample.cs.metaFilename = some Sample.oldCheckpoint :=
  ⟨(Run_failure_keeps_checkpoint Sample.marshal "my db" false Sample.t0 "2024-05-01T10:00:00Z"
      Sample.cs (Sample.envRenameFails [Sample.turnA, Sample.turnC]) Sample.checkpointOnly
      rfl).2.2.2.1 "rename: permission denied" (by decide),
    (Run_failure_keeps_checkpoint Sample.marshal "my db" false Sample.t0 "2024-05-01T10:00:00Z"
      Sample.cs (Sample.envOpenFails [Sample.turnA]) Sample.checkpointOnly
      rfl).1 "open: permission denied" (by decide),
    (Run_failure_keeps_checkpoint Sample.marshal "my db" false Sample.t0 "2024-05-01T10:00:00Z"
      Sample.cs Sample.envFeedFails Sample.checkpointOnly
      rfl).2.2.1 "changes: not found" (by decide),
    by decide⟩

/-- C2 (amended) at the sample feed `[a, b (deleted), c]` with deletions disabled: the
artifact is the line of `a` then the line of `c`, without their revisions; with
deletions enabled the lines are those of `a`, `b` and `c`. -/
theorem Run_artifact_lines_witness :
    (App.Run Sample.marshal Sample.cs (Sample.env [Sample.turnA, Sample.turnB, Sample.turnC])
      Sample.noFiles).fs Sample.cs.filename =
      some (concatLines (artifactLines Sample.marshal false
        [Sample.turnA, Sample.turnB, Sample.turnC])) ∧
    artifactLines Sample.marshal false [Sample.turnA, Sample.turnB, Sample.turnC] =
      ["\x7b\"_id\":\"a\"\x7d\n", "\x7b\"_id\":\"c\"\x7d\n"] ∧
    artifactLines Sample.marshal true [Sample.turnA, Sample.turnB, Sample.turnC] =
      ["\x7b\"_id\":\"a\"\x7d\n", "\x7b\"_deleted\":true,\"_id\":\"b\"\x7d\n",
        "\x7b\"_id\":\"c\"\x7d\n"] :=
  ⟨(Run_artifact_lines Sample.marshal "my db" false Sample.t0 "2024-05-01T10:00:00Z"
      Sample.cs (Sample.env [Sample.turnA, Sample.turnB, Sample.turnC]) Sample.noFiles
      Sample.cs.meta [Sample.turnA, Sample.turnB, Sample.turnC] rfl rfl rfl rfl rfl
      (by decide)).2.1 rfl,
    by decide, by decide⟩

/-- C2 as stated fails: for the feed `[a, c (no document)]` with deletions disabled no
event is a per-item failure or a deletion, no serialization fails and no write fails,
yet the run panics when it clears the revision of the absent document of `c`: no
artifact exists under the final name, and the temporary file holds the line of `a`
only. -/
theorem Run_nil_doc_counterexample :
    Sample.cs.appConfig.Deletions = false ∧
    [Sample.turnA, Sample.turnNoDoc].filterMap Turn.retrieved =
      [Sample.event "a" "1-g1AAAA",
       { Deleted := none, Doc := none, ID := some "c", Seq := some "3-g1CCCC" }] ∧
    keptEvents false [Sample.turnA, Sample.turnNoDoc] =
      [Sample.turnA, Sample.turnNoDoc].filterMap Turn.retrieved ∧
    (∀ doc, ∃ text, Sample.marshal doc = .ok text) ∧
    Sample.turnA.writeErr = none ∧ Sample.turnNoDoc.writeErr = none ∧
    (App.Run Sample.marshal Sample.cs (Sample.env [Sample.turnA, Sample.turnNoDoc])
      Sample.noFiles).outcome = .panicked ∧
    (App.Run Sample.marshal Sample.cs (Sample.env [Sample.turnA, Sample.turnNoDoc])
      Sample.noFiles).fs Sample.cs.filename = none ∧
    (App.Run Sample.marshal Sample.cs (Sample.env [Sample.turnA, Sample.turnNoDoc])
      Sample.noFiles).fs Sample.cs.tmpFilename = some "\x7b\"_id\":\"a\"\x7d\n" :=
  ⟨by decide, rfl, rfl, fun _ => ⟨_, rfl⟩, by decide, by decide, by decide,
    by decide, by decide⟩

/-- C3 as stated fails: for the feed `[a, b (deleted)]` with deletions disabled the run
returns nil and the cursor it records, and the next run loads, is the token of `a`,
not the token of the deletion `b`. -/
theorem Run_deletion_cursor_counterexample :
    Sample.cs.appConfig.Deletions = false ∧
    Sample.turnB.deletion = true ∧
    Sample.turnB.retrieved.bind (fun item => item.Seq) = some "2-g1BBBB" ∧
    (App.Run Sample.marshal Sample.cs (Sample.env [Sample.turnA, Sample.turnB])
      Sample.noFiles).outcome = .returned none ∧
    (App.Run Sample.marshal Sample.cs (Sample.env [Sample.turnA, Sample.turnB])
      Sample.noFiles).meta.Since = "1-g1AAAA" ∧
    ((NewMetaData "my db" Sample.t1).LoadPreviousFile
      (ReadFile (Sample.env [])
        (App.Run Sample.marshal Sample.cs (Sample.env [Sample.turnA, Sample.turnB])
          Sample.noFiles).fs Sample.cs.metaFilename)).map (fun md => md.Since) =
      some "1-g1AAAA" ∧
    (App.Run Sample.marshal Sample.cs (Sample.env [Sample.turnA, Sample.turnB])
      Sample.noFiles).meta.Since ≠ "2-g1BBBB" := by
  decide

/-- C3 (amended) at the sample feed `[a, b (deleted)]`: the recorded cursor is the token
of `a`. -/
theorem Run_checkpoint_cursor_witness :
    (App.Run Sample.marshal Sample.cs (Sample.env [Sample.turnA, Sample.turnB])
      Sample.noFiles).meta.Since =
      finalCursor Sample.marshal false Sample.cs.meta.Since [Sample.turnA, Sample.turnB] ∧
    finalCursor Sample.marshal false Sample.cs.meta.Since [Sample.turnA, Sample.turnB] =
      "1-g1AAAA" :=
  ⟨(Run_checkpoint_cursor Sample.marshal "my db" Sample.t0 "2024-05-01T10:00:00Z"
      Sample.cs (Sample.env [Sample.turnA, Sample.turnB]) Sample.noFiles
      Sample.cs.meta [Sample.turnA, Sample.turnB] rfl rfl rfl rfl rfl rfl rfl
      (by decide)).2.1,
    by decide⟩

/-- C4 at the sample feed `[a, failed item, c]`: the run ends as the run over `[a, c]`
does and leaves the same files; it returns nil, the artifact holds the lines of `a` and
`c`, and the saved cursor is the token of `c`. -/
theorem Run_skips_item_error_witness :
    ((App.Run Sample.marshal Sample.cs
        (Sample.env ([Sample.turnA] ++ Sample.turnFailed :: [Sample.turnC]))
        Sample.noFiles).outcome =
      (App.Run Sample.marshal Sample.cs
        { Sample.env ([Sample.turnA] ++ Sample.turnFailed :: [Sample.turnC]) with
          changes := .ok ([Sample.turnA] ++ [Sample.turnC]) } Sample.noFiles).outcome) ∧
    (App.Run Sample.marshal Sample.cs
        (Sample.env ([Sample.turnA] ++ Sample.turnFailed :: [Sample.turnC]))
        Sample.noFiles).fs =
      (App.Run Sample.marshal Sample.cs
        { Sample.env ([Sample.turnA] ++ Sample.turnFailed :: [Sample.turnC]) with
          changes := .ok ([Sample.turnA] ++ [Sample.turnC]) } Sample.noFiles).fs ∧
    (App.Run Sample.marshal Sample.cs
      (Sample.env [Sample.turnA, Sample.turnFailed, Sample.turnC])
      Sample.noFiles).outcome = .returned none ∧
    (App.Run Sample.marshal Sample.cs
      (Sample.env [Sample.turnA, Sample.turnFailed, Sample.turnC])
      Sample.noFiles).fs Sample.cs.filename =
      some "\x7b\"_id\":\"a\"\x7d\n\x7b\"_id\":\"c\"\x7d\n" ∧
    (App.Run Sample.marshal Sample.cs
      (Sample.env [Sample.turnA, Sample.turnFailed, Sample.turnC])
      Sample.noFiles).meta.Since = "3-g1CCCC" ∧
    (App.Run Sample.marshal Sample.cs
      (Sample.env [Sample.turnA, Sample.turnFailed, Sample.turnC])
      Sample.noFiles).fs Sample.cs.metaFilename =
      some (MetaData.RecordEnd Sample.cs.meta "3-g1CCCC" Sample.t1).Output ∧
    (App.Run Sample.marshalNotB Sample.cs
      (Sample.env [Sample.turnA, Sample.turnB1, Sample.turnC])
      Sample.noFiles).fs Sample.cs.filename =
      some "\x7b\"_id\":\"a\"\x7d\n\x7b\"_id\":\"c\"\x7d\n" :=
  ⟨(Run_skips_item_error Sample.marshal "my db" false Sample.t0 "2024-05-01T10:00:00Z"
      Sample.cs (Sample.env ([Sample.turnA] ++ Sample.turnFailed :: [Sample.turnC]))
      Sample.noFiles [Sample.turnA] [Sample.turnC] Sample.turnFailed rfl rfl
      (by decide)).2.1,
    (Run_skips_item_error Sample.marshal "my db" false Sample.t0 "2024-05-01T10:00:00Z"
      Sample.cs (Sample.env ([Sample.turnA] ++ Sample.turnFailed :: [Sample.turnC]))
      Sample.noFiles [Sample.turnA] [Sample.turnC] Sample.turnFailed rfl rfl
      (by decide)).2.2.2.2.2.2.1 (by decide),
    by decide, by decide, by decide, by decide, by decide⟩

/-- C6 at sample inputs: with the checkpoint of an earlier run the request carries its
cursor `1-g1AAAA`; with no checkpoint file it carries `"0"`. -/
theorem Run_request_since_witness :
    (App.Run Sample.marshal Sample.cs (Sample.env [Sample.turnC])
      Sample.checkpointOnly).requested = some "1-g1AAAA" ∧
    (App.Run Sample.marshal Sample.cs (Sample.env [Sample.turnA])
      Sample.noFiles).requested = some "0" :=
  ⟨(Run_request_since Sample.marshal "my db" false Sample.t0 "2024-05-01T10:00:00Z"
      Sample.cs (Sample.env [Sample.turnC]) Sample.checkpointOnly rfl rfl).2.1
      { Sample.cs.meta with Since := "1-g1AAAA" } rfl (by decide),
    (Run_request_since Sample.marshal "my db" false Sample.t0 "2024-05-01T10:00:00Z"
      Sample.cs (Sample.env [Sample.turnA]) Sample.noFiles rfl rfl).2.2 rfl⟩

/-- C10 (the code at the failing input): with deletions disabled, the default of the
flag, and the feed `[b (deleted)]`, in which nothing fails, `Run` of `snap/snap.go`
writes the line of the deleted document `b` and records its token, and `Run` of
`internal/app/snap.go` writes no line and records the loaded (empty) cursor. -/
theorem Run_snap_ignores_deletions :
    NewAppConfig "my db" false = .ok Sample.cs.appConfig ∧
    Sample.cs.appConfig.Deletions = false ∧
    Sample.turnB.clean Sample.marshal = true ∧
    Sample.turnB.deletion = true ∧
    Sample.noFiles Sample.cs.tmpFilename = none ∧
    (Snap.Run Sample.marshal { appConfig := Sample.cs.appConfig } Sample.t0
      "2024-05-01T10:00:00Z" (Sample.env [Sample.turnB]) Sample.noFiles).outcome =
      .returned none ∧
    (App.Run Sample.marshal Sample.cs (Sample.env [Sample.turnB]) Sample.noFiles).outcome =
      .returned none ∧
    (Snap.Run Sample.marshal { appConfig := Sample.cs.appConfig } Sample.t0
      "2024-05-01T10:00:00Z" (Sample.env [Sample.turnB]) Sample.noFiles).fs
      Sample.cs.filename = some "\x7b\"_deleted\":true,\"_id\":\"b\"\x7d\n" ∧
    (App.Run Sample.marshal Sample.cs (Sample.env [Sample.turnB]) Sample.noFiles).fs
      Sample.cs.filename = some "" ∧
    (Snap.Run Sample.marshal { appConfig := Sample.cs.appConfig } Sample.t0
      "2024-05-01T10:00:00Z" (Sample.env [Sample.turnB]) Sample.noFiles).meta.Since =
      "2-g1BBBB" ∧
    (App.Run Sample.marshal Sample.cs (Sample.env [Sample.turnB]) Sample.noFiles).meta.Since =
      "" :=
  ⟨rfl, by decide⟩

/-- The two copies at the sample feed `[a, c]`, which has no deletion: they are the same
run, with the lines of `a` and `c` in the artifact. -/
theorem Run_copies_agree_sample :
    Snap.Run Sample.marshal { appConfig := Sample.cs.appConfig } Sample.t0
      "2024-05-01T10:00:00Z" (Sample.env [Sample.turnA, Sample.turnC]) Sample.noFiles =
      App.Run Sample.marshal Sample.cs (Sample.env [Sample.turnA, Sample.turnC])
        Sample.noFiles ∧
    (Snap.Run Sample.marshal { appConfig := Sample.cs.appConfig } Sample.t0
      "2024-05-01T10:00:00Z" (Sample.env [Sample.turnA, Sample.turnC]) Sample.noFiles).fs
      Sample.cs.filename = some "\x7b\"_id\":\"a\"\x7d\n\x7b\"_id\":\"c\"\x7d\n" :=
  ⟨Run_copies_agree Sample.marshal "my db" false Sample.t0 "2024-05-01T10:00:00Z"
      Sample.cs (Sample.env [Sample.turnA, Sample.turnC]) Sample.noFiles
      [Sample.turnA, Sample.turnC] rfl rfl (by decide) (Or.inr (by decide)) rfl rfl,
    by decide⟩

end CloudantSnap
